import Mathlib

/-! Texture image loader (`gfx/image/image.c`).

A shallow embedding of the generic build of the texture loader: the
uncompressed TGA decoder `rtga_image_load_shift`, the PNG channel repacker
`rpng_image_load_argb_shift`, the dispatcher `texture_image_load`, the release
`texture_image_free`, and the tiled conversion `rpng_gx_convert_texture32` of
the `GEKKO` build.

Conventions of the embedding.

* `unsigned` and `uint32_t` values are natural numbers reduced with `u32`
  wherever the C arithmetic is carried out in 32 bits.
* A `uint8_t` is a `Fin 256`.
* The heap of pixel buffers is explicit state (`Heap`).  A pointer is an
  `Option Nat`, `none` being `NULL`.  Every function that touches memory
  returns an `Option`: `none` is a memory fault (a store or load outside a
  live block, a `NULL` dereference, freeing a block that is not live).
* The raw file buffer handed to the TGA decoder is a bare `uint8_t *`
  without a length, so it is the memory reachable from that pointer:
  a total function from byte offsets to bytes.  What a run computes from
  that memory is stated here; which offsets lie inside the file is not part
  of the decoder's input.
* Shift counts are natural numbers and `x << s` is `(x * 2 ^ s) mod 2 ^ 32`;
  the dispatcher only passes 0, 8, 16 and 24.
* The tiled conversion accesses its buffers through `uint16_t *`: a block of
  words is viewed as its half-words in memory order (`halves`, big-endian as
  on the target), the loops run on that view and record every assignment, and
  the result is viewed as words again (`words`).  On that target `size_t` and
  addresses have 32 bits, so a block of `w * h` words has `4 * w * h < 2 ^ 32`.
-/

namespace Image

/-- Reduction of a natural number to an `unsigned` / `uint32_t` value. -/
def u32 (n : Nat) : Nat := n % 2 ^ 32

/-- A byte, as read through a `uint8_t *`. -/
abbrev uint8_t := Fin 256

/-- The memory reachable from a `uint8_t *`: the byte at each offset. -/
abbrev Bytes := Nat → uint8_t

/-- The descriptor `struct texture_image` of the generic build:
`width`, `height` and the pointer `pixels` (`none` is `NULL`). -/
structure texture_image where
  width : Nat
  height : Nat
  pixels : Option Nat

/-- The heap of 32-bit word buffers together with the allocator.

* `cells p` is the content of the live block at address `p`, `none` when no
  block is live there;
* `next` is the address the allocator hands out next;
* `requests` logs the byte counts passed to `malloc`, latest first;
* `released` logs the addresses passed to `free`, latest first;
* `oracle n` is the outcome of the `n`-th call of `malloc`: `none` when it
  returns `NULL`, otherwise the indeterminate initial content of the block. -/
structure Heap where
  cells : Nat → Option (List Nat)
  next : Nat
  requests : List Nat
  released : List Nat
  oracle : Nat → Option (Nat → Nat)

/-- The call `malloc(size)`: logs the request and, when the allocator succeeds,
makes a block of `size / 4` words live at a fresh address. -/
def malloc (h : Heap) (size : Nat) : Option Nat × Heap :=
  match h.oracle h.requests.length with
  | none => (none, { h with requests := size :: h.requests })
  | some init =>
    (some h.next,
      { h with
        cells := Function.update h.cells h.next
          (some ((List.range (size / 4)).map fun i => u32 (init i)))
        next := h.next + 1
        requests := size :: h.requests })

/-- The call `free(p)` on a non-null pointer: a fault unless the block is live. -/
def free (h : Heap) (p : Nat) : Option Heap :=
  match h.cells p with
  | none => none
  | some _ =>
    some { h with cells := Function.update h.cells p none, released := p :: h.released }

/-- The load `p[i]` through a `uint32_t *`. -/
def load32 (h : Heap) (p : Nat) (i : Nat) : Option Nat :=
  match h.cells p with
  | none => none
  | some blk => blk[i]?

/-- The store `p[i] = v` through a `uint32_t *`. -/
def store32 (h : Heap) (p : Nat) (i v : Nat) : Option Heap :=
  match h.cells p with
  | none => none
  | some blk =>
    if i < blk.length then
      some { h with cells := Function.update h.cells p (some (blk.set i v)) }
    else none

/-- The loop `for (i = i0; i < i0 + count; i++) body`, where the body may fault. -/
def for_loop {σ : Type} (body : Nat → σ → Option σ) : Nat → Nat → σ → Option σ
  | 0, _, s => some s
  | count + 1, i, s =>
    match body i s with
    | none => none
    | some s1 => for_loop body count (i + 1) s1

/-- The expression `(a << a_shift) | (r << r_shift) | (g << g_shift) | (b << b_shift)`
on 32-bit operands. -/
def pack_shift (a r g b a_shift r_shift g_shift b_shift : Nat) : Nat :=
  u32 (a <<< a_shift) ||| u32 (r <<< r_shift) ||| u32 (g <<< g_shift) ||| u32 (b <<< b_shift)

/-- The byte count `size = width * height * sizeof(uint32_t)` of
`rtga_image_load_shift`, stored in an `unsigned`. -/
def rtga_alloc_size (width height : Nat) : Nat :=
  u32 (u32 (width * height) * 4)

/-- The word the TGA loop body stores at index `i` (lines 104-113);
`tmp` is `buf + 18`. -/
def rtga_pixel (tmp : Bytes) (bits bits_mul a_shift r_shift g_shift b_shift i : Nat) : Nat :=
  let b := (tmp (u32 (u32 (i * bits_mul) + 0))).val
  let g := (tmp (u32 (u32 (i * bits_mul) + 1))).val
  let r := (tmp (u32 (u32 (i * bits_mul) + 2))).val
  let a := (tmp (u32 (u32 (i * bits_mul) + 3))).val
  let a := if bits = 24 then 0xff else a
  pack_shift a r g b a_shift r_shift g_shift b_shift

/-- The function `rtga_image_load_shift` (lines 52-117).  The result is the
returned flag, the descriptor and the heap. -/
def rtga_image_load_shift (buf : Bytes) (out_img : texture_image)
    (a_shift r_shift g_shift b_shift : Nat) (h : Heap) :
    Option (Bool × texture_image × Heap) :=
  if (buf 2).val ≠ 2 then
    some (false, out_img, h)
  else
    let info : Nat → Nat := fun k => (buf (12 + k)).val
    let width := u32 (info 0 + u32 (info 1 * 256))
    let height := u32 (info 2 + u32 (info 3 * 256))
    let bits := info 4
    let size := rtga_alloc_size width height
    let (p, h1) := malloc h size
    let out1 : texture_image := { pixels := p, width := width, height := height }
    match p with
    | none => some (false, out1, h1)
    | some ptr =>
      let tmp : Bytes := fun k => buf (18 + k)
      let bits_mul := 3
      if bits ≠ 32 ∧ bits ≠ 24 then
        match free h1 ptr with
        | none => none
        | some h2 => some (false, { out1 with pixels := none }, h2)
      else
        let bits_mul := if bits = 32 then 4 else bits_mul
        match for_loop
            (fun i hp =>
              store32 hp ptr i (rtga_pixel tmp bits bits_mul a_shift r_shift g_shift b_shift i))
            (u32 (width * height)) 0 h1 with
        | none => none
        | some h2 => some (true, out1, h2)

/-- The loop body of the PNG repacker (lines 197-203): reads `pixels[i]`, splits
it into its native ARGB bytes and stores the word repacked with the requested
shifts. -/
def rpng_repack_pixel (pixels a_shift r_shift g_shift b_shift i : Nat) (h : Heap) : Option Heap :=
  match load32 h pixels i with
  | none => none
  | some col =>
    let a := (col >>> 24) % 256
    let r := (col >>> 16) % 256
    let g := (col >>> 8) % 256
    let b := (col >>> 0) % 256
    store32 h pixels i (pack_shift a r g b a_shift r_shift g_shift b_shift)

/-- Outcome of the external `read_file(path, &raw_buf, &len)`. -/
structure read_result where
  ret : Bool
  raw_buf : Option Bytes
  len : Int

/-- Build configuration and external collaborators of the generic build:
the global `driver.gfx_use_rgba`, whether `HAVE_ZLIB` is defined, the file
reader `read_file` and the PNG decoder `rpng_load_image_argb`, which receives
the addresses of the three descriptor fields and may allocate. -/
structure Env where
  gfx_use_rgba : Bool
  have_zlib : Bool
  read_file : String → read_result
  rpng_load_image_argb : String → texture_image → Heap → Bool × texture_image × Heap

/-- The function `rpng_image_load_argb_shift` (lines 172-208), blocking variant. -/
def rpng_image_load_argb_shift (env : Env) (path : String) (out_img : texture_image)
    (a_shift r_shift g_shift b_shift : Nat) (h : Heap) :
    Option (Bool × texture_image × Heap) :=
  let (ret, img1, h1) := env.rpng_load_image_argb path out_img h
  if !ret then
    some (false, img1, h1)
  else if a_shift ≠ 24 ∨ r_shift ≠ 16 ∨ g_shift ≠ 8 ∨ b_shift ≠ 0 then
    let num_pixels := u32 (img1.width * img1.height)
    match img1.pixels with
    | none => if num_pixels = 0 then some (true, img1, h1) else none
    | some pixels =>
      match for_loop (rpng_repack_pixel pixels a_shift r_shift g_shift b_shift)
          num_pixels 0 h1 with
      | none => none
      | some h2 => some (true, img1, h2)
  else
    some (true, img1, h1)

/-- The test `strstr(haystack, needle) != NULL` on character lists. -/
def strstr_chars : List Char → List Char → Bool
  | [], needle => needle.isEmpty
  | c :: cs, needle => needle.isPrefixOf (c :: cs) || strstr_chars cs needle

/-- The test `strstr(haystack, needle) != NULL`. -/
def strstr (haystack needle : String) : Bool :=
  strstr_chars haystack.data needle.data

/-- The function `texture_image_load` of the generic build (lines 487-538,
neither `_XBOX1` nor `__CELLOS_LV2__`, `GEKKO` undefined).

In the `.tga` branch the declaration `bool ret = read_file(...)` on line 502
opens a new variable that hides the `ret` of line 490; the assignment of the
decoder's result on line 512 goes to the inner variable, and line 537 returns
the outer one.  The release of the raw file buffer (line 516) does not touch
the heap of pixel buffers and is not tracked. -/
def texture_image_load (env : Env) (out_img : texture_image) (path : String) (h : Heap) :
    Option (Bool × texture_image × Heap) :=
  let ret := false
  let use_rgba := env.gfx_use_rgba
  let a_shift := 24
  let r_shift := if use_rgba then 0 else 16
  let g_shift := 8
  let b_shift := if use_rgba then 16 else 0
  if strstr path ".tga" then
    let rf := env.read_file path
    let ret_inner := rf.ret
    if !ret_inner || rf.len < 0 then
      some (false, out_img, h)
    else
      match rf.raw_buf with
      | none => none
      | some buf =>
        match rtga_image_load_shift buf out_img a_shift r_shift g_shift b_shift h with
        | none => none
        | some (_ret_inner, img1, h1) => some (ret, img1, h1)
  else if env.have_zlib && strstr path ".png" then
    rpng_image_load_argb_shift env path out_img a_shift r_shift g_shift b_shift h
  else
    some (ret, out_img, h)

/-! ### Concrete inputs used to evaluate the definitions -/

/-- A heap with no live block whose allocator always succeeds. -/
def heap_ok : Heap :=
  { cells := fun _ => none, next := 0, requests := [], released := [],
    oracle := fun _ => some fun _ => 0 }

/-- A heap with no live block whose allocator always returns `NULL`. -/
def heap_oom : Heap :=
  { cells := fun _ => none, next := 0, requests := [], released := [],
    oracle := fun _ => none }

/-- The unpopulated descriptor. -/
def img_empty : texture_image := { width := 0, height := 0, pixels := none }

/-- The memory holding the given file bytes, followed by zero bytes. -/
def bytes_of (l : List uint8_t) : Bytes := fun i => l.getD i 0

/-- A TGA header: type byte `ty`, little-endian width and height, depth `bits`. -/
def tga_header (ty wlo whi hlo hhi bits : uint8_t) : List uint8_t :=
  [0, 0, ty, 0, 0, 0, 0, 0, 0, 0, 0, 0, wlo, whi, hlo, hhi, bits, 0]

/-- A 2x1 uncompressed 24-bit TGA file: pixels (B,G,R) = (1,2,3) and (4,5,6). -/
def tga_2x1_24 : Bytes := bytes_of (tga_header 2 2 0 1 0 24 ++ [1, 2, 3, 4, 5, 6])

/-- A 1x2 uncompressed 32-bit TGA file: pixels (B,G,R,A) = (1,2,3,4) and (5,6,7,8). -/
def tga_1x2_32 : Bytes := bytes_of (tga_header 2 1 0 2 0 32 ++ [1, 2, 3, 4, 5, 6, 7, 8])

/-- The header of a 32768x32768 uncompressed 32-bit TGA file. -/
def tga_32768_sq_32 : Bytes := bytes_of (tga_header 2 0 128 0 128 32)

/-- A 1x1 TGA file with type byte 10 (run-length encoded), depth 24. -/
def tga_rle : Bytes := bytes_of (tga_header 10 1 0 1 0 24 ++ [1, 2, 3])

/-- A 1x1 uncompressed TGA file with depth 16. -/
def tga_1x1_16 : Bytes := bytes_of (tga_header 2 1 0 1 0 16 ++ [1, 2])

/-- The first bytes of a PNG file: the eight-byte signature. -/
def png_signature : Bytes := bytes_of [0x89, 0x50, 0x4E, 0x47, 0x0D, 0x0A, 0x1A, 0x0A]

/-- A heap as the PNG decoder leaves it after decoding a 1x1 image into the
block at address 0. -/
def heap_png : Heap :=
  { cells := Function.update (fun _ => none) 0 (some [0xFF112233]), next := 1,
    requests := [4], released := [], oracle := fun _ => some fun _ => 0 }

/-- Collaborators for a directory of TGA files: every read returns the 2x1
24-bit file, the PNG decoder fails and leaves its arguments alone. -/
def env_tga : Env :=
  { gfx_use_rgba := false, have_zlib := true,
    read_file := fun _ => ⟨true, some tga_2x1_24, 24⟩,
    rpng_load_image_argb := fun _ img h => (false, img, h) }

/-- Collaborators as `env_tga`, with the RGBA flag set and the 1x2 32-bit file. -/
def env_tga_rgba : Env :=
  { gfx_use_rgba := true, have_zlib := true,
    read_file := fun _ => ⟨true, some tga_1x2_32, 26⟩,
    rpng_load_image_argb := fun _ img h => (false, img, h) }

/-- Collaborators for a directory of PNG files: every read returns a PNG
signature, the PNG decoder succeeds with a 1x1 image. -/
def env_png (use_rgba : Bool) : Env :=
  { gfx_use_rgba := use_rgba, have_zlib := true,
    read_file := fun _ => ⟨true, some png_signature, 8⟩,
    rpng_load_image_argb := fun _ _ _ => (true, ⟨1, 1, some 0⟩, heap_png) }

/-- The heap `h` with the block at `p` replaced by `blk`. -/
def Heap.put (h : Heap) (p : Nat) (blk : List Nat) : Heap :=
  { h with cells := Function.update h.cells p (some blk) }

/-- The words `f i, ..., f (i + count - 1)` written over a block from index `i`. -/
def write_range (f : Nat → Nat) : Nat → Nat → List Nat → List Nat
  | 0, _, blk => blk
  | count + 1, i, blk => write_range f count (i + 1) (blk.set i (f i))

/-- The words `g blk[i], ..., g blk[i + count - 1]` written in place over a
block from index `i`. -/
def repack_range (g : Nat → Nat) : Nat → Nat → List Nat → List Nat
  | 0, _, blk => blk
  | count + 1, i, blk => repack_range g count (i + 1) (blk.set i (g (blk.getD i 0)))

/-- The per-pixel transform of the PNG repacker on a native ARGB word. -/
def rpng_repack_word (a_shift r_shift g_shift b_shift col : Nat) : Nat :=
  pack_shift ((col >>> 24) % 256) ((col >>> 16) % 256) ((col >>> 8) % 256)
    ((col >>> 0) % 256) a_shift r_shift g_shift b_shift

/-- The heap a run ends with, `d` when the run faulted. -/
def heap_after (o : Option (Bool × texture_image × Heap)) (d : Heap) : Heap :=
  match o with
  | some r => r.2.2
  | none => d

/-! ### Release of a descriptor -/

/-- The function `texture_image_free` of the generic build (lines 273-286).  The
argument is the pointer `img`, `none` being `NULL`; the result is the
descriptor the pointer designates afterwards and the heap. -/
def texture_image_free (img : Option texture_image) (h : Heap) :
    Option (Option texture_image × Heap) :=
  match img with
  | none => some (none, h)
  | some im =>
    match im.pixels with
    | none => some (some { width := 0, height := 0, pixels := none }, h)
    | some p =>
      match free h p with
      | none => none
      | some h1 => some (some { width := 0, height := 0, pixels := none }, h1)

/-! ### The tiled conversion of the `GEKKO` build -/

/-- A block of 32-bit words seen through a `uint16_t *` on the big-endian
`GEKKO` target: the high half-word of each word comes first. -/
def halves : List Nat → List Nat
  | [] => []
  | w :: t => (w / 65536) % 65536 :: w % 65536 :: halves t

/-- The block of 32-bit words that an array of half-words designates. -/
def words : List Nat → List Nat
  | a :: b :: t => (a * 65536 + b) :: words t
  | _ => []

/-- State of the loops of `rpng_gx_convert_texture32`: the half-word pointers
`src`, `dst`, `tmp_src`, `tmp_dst` as offsets from the start of their buffers,
the pixel buffer `pix` viewed as half-words, and the log `copies` of the
assignments `dst_buffer[a] = staging[b]` carried out, latest first. -/
structure gx_state where
  src : Nat
  dst : Nat
  tmp_src : Nat
  tmp_dst : Nat
  pix : List Nat
  copies : List (Nat × Nat)

/-- One assignment `pixels16[a] = tmp16[b]` of the macro body; a fault when
either index is outside its buffer. -/
def gx_copy16 (tmp : List Nat) (a b : Nat) (s : gx_state) : Option gx_state :=
  match tmp[b]? with
  | none => none
  | some v =>
    if a < s.pix.length then
      some { s with pix := s.pix.set a v, copies := (a, b) :: s.copies }
    else none

/-- The body of the loop of `GX_BLIT_LINE_32(off)` (lines 219-226) with the
increments `tmp_src += 8, tmp_dst += 32` of the loop header. -/
def gx_blit_tile (tmp : List Nat) (off : Nat) (s : gx_state) : Option gx_state :=
  (gx_copy16 tmp (s.tmp_dst + (0 + off)) (s.tmp_src + 0) s).bind fun s =>
  (gx_copy16 tmp (s.tmp_dst + (16 + off)) (s.tmp_src + 1) s).bind fun s =>
  (gx_copy16 tmp (s.tmp_dst + (1 + off)) (s.tmp_src + 2) s).bind fun s =>
  (gx_copy16 tmp (s.tmp_dst + (17 + off)) (s.tmp_src + 3) s).bind fun s =>
  (gx_copy16 tmp (s.tmp_dst + (2 + off)) (s.tmp_src + 4) s).bind fun s =>
  (gx_copy16 tmp (s.tmp_dst + (18 + off)) (s.tmp_src + 5) s).bind fun s =>
  (gx_copy16 tmp (s.tmp_dst + (3 + off)) (s.tmp_src + 6) s).bind fun s =>
  (gx_copy16 tmp (s.tmp_dst + (19 + off)) (s.tmp_src + 7) s).bind fun s =>
  some { s with tmp_src := s.tmp_src + 8, tmp_dst := s.tmp_dst + 32 }

/-- The macro `GX_BLIT_LINE_32(off)` (lines 213-229). -/
def GX_BLIT_LINE_32 (tmp : List Nat) (width2 tmp_pitch off : Nat) (s : gx_state) :
    Option gx_state :=
  let s0 := { s with tmp_src := s.src, tmp_dst := s.dst }
  match for_loop (fun _x st => gx_blit_tile tmp off st) (width2 >>> 3) 0 s0 with
  | none => none
  | some s1 => some { s1 with src := s1.src + tmp_pitch }

/-- The body of the loop over bands of four rows (lines 259-265) with the
increment `dst += 4 * width2` of the loop header. -/
def gx_blit_band (tmp : List Nat) (width2 tmp_pitch : Nat) (s : gx_state) : Option gx_state :=
  (GX_BLIT_LINE_32 tmp width2 tmp_pitch 0 s).bind fun s =>
  (GX_BLIT_LINE_32 tmp width2 tmp_pitch 4 s).bind fun s =>
  (GX_BLIT_LINE_32 tmp width2 tmp_pitch 8 s).bind fun s =>
  (GX_BLIT_LINE_32 tmp width2 tmp_pitch 12 s).bind fun s =>
  some { s with dst := s.dst + u32 (4 * width2) }

/-- The loops of `rpng_gx_convert_texture32` (lines 249-265) on a `width` x
`height` image: `tmp` is the staging copy and `pix` the pixel buffer, both
viewed as half-words.  The loop `for (i = 0; i < height; i += 4)` runs
`(height + 3) / 4` times. -/
def rpng_gx_blit (tmp pix : List Nat) (width height : Nat) : Option gx_state :=
  let tmp_pitch := u32 (width * 4) >>> 1
  let width := width &&& 0xFFFFFFFC
  let height := height &&& 0xFFFFFFFC
  let width2 := u32 (width <<< 1)
  for_loop (fun _i st => gx_blit_band tmp width2 tmp_pitch st) ((height + 3) / 4) 0
    { src := 0, dst := 0, tmp_src := 0, tmp_dst := 0, pix := pix, copies := [] }

/-- The function `rpng_gx_convert_texture32` (lines 231-269).  On the target
`size_t` has 32 bits.  The call `memcpy(tmp, image->pixels, size)` faults when
`image->pixels` is null or its block is shorter than `size` bytes. -/
def rpng_gx_convert_texture32 (image : texture_image) (h : Heap) :
    Option (Bool × texture_image × Heap) :=
  let size := u32 (u32 (image.width * image.height) * 4)
  let (tmp, h1) := malloc h size
  match tmp with
  | none => some (false, image, h1)
  | some t =>
    match image.pixels with
    | none => none
    | some p =>
      match h1.cells p with
      | none => none
      | some blk =>
        if blk.length < size / 4 then none
        else
          let staging := blk.take (size / 4)
          let h2 := h1.put t staging
          match rpng_gx_blit (halves staging) (halves blk) image.width image.height with
          | none => none
          | some st =>
            let h3 := h2.put p (words st.pix)
            match free h3 t with
            | none => none
            | some h4 =>
              some (true,
                { image with
                  width := image.width &&& 0xFFFFFFFC
                  height := image.height &&& 0xFFFFFFFC }, h4)

/-- The buffer offsets read by the body of the TGA loop for pixel `i`
(lines 104-107). -/
def rtga_pixel_reads (bits_mul i : Nat) : List Nat :=
  [18 + u32 (u32 (i * bits_mul) + 0), 18 + u32 (u32 (i * bits_mul) + 1),
    18 + u32 (u32 (i * bits_mul) + 2), 18 + u32 (u32 (i * bits_mul) + 3)]

/-- The offsets of `buf` that a run of `rtga_image_load_shift` reads, in order,
when no store of the loop faults: the type byte, the six bytes of the info
block, and the four bytes the loop body reads for every pixel. -/
def rtga_read_offsets (buf : Bytes) (h : Heap) : List Nat :=
  2 ::
    (if (buf 2).val ≠ 2 then []
    else
      let info : Nat → Nat := fun k => (buf (12 + k)).val
      let width := u32 (info 0 + u32 (info 1 * 256))
      let height := u32 (info 2 + u32 (info 3 * 256))
      let bits := info 4
      [12, 13, 14, 15, 16, 17] ++
        (match (malloc h (rtga_alloc_size width height)).1 with
        | none => []
        | some _ =>
          if bits ≠ 32 ∧ bits ≠ 24 then []
          else
            let bits_mul := if bits = 32 then 4 else 3
            (List.range (u32 (width * height))).flatMap (rtga_pixel_reads bits_mul)))

/-! ### Further concrete inputs -/

/-- A 1x1 uncompressed 24-bit TGA file of exactly 21 bytes. -/
def tga_1x1_24 : List uint8_t := tga_header 2 1 0 1 0 24 ++ [1, 2, 3]

/-- A heap whose block at address 0 holds the 6x6 image with pixel
`0x01000000 * row + 0x00010000 * column + 0x0100 * row + column`. -/
def heap_6x6 : Heap :=
  { cells := Function.update (fun _ => none) 0
      (some ((List.range 36).map fun i => 0x01000100 * (i / 6) + 0x00010001 * (i % 6))),
    next := 1, requests := [144], released := [],
    oracle := fun _ => some fun _ => 0 }

/-- The pixel buffer after the logged assignments `copies` (latest first) have
been carried out on `pix`. -/
def replay (tmp : List Nat) : List (Nat × Nat) → List Nat → List Nat
  | [], pix => pix
  | c :: cs, pix => (replay tmp cs pix).set c.1 (tmp.getD c.2 0)

/-- The eight assignments of one run of the macro body, latest first. -/
def tile_copies (ts td off : Nat) : List (Nat × Nat) :=
  [(td + (19 + off), ts + 7), (td + (3 + off), ts + 6), (td + (18 + off), ts + 5),
    (td + (2 + off), ts + 4), (td + (17 + off), ts + 3), (td + (1 + off), ts + 2),
    (td + (16 + off), ts + 1), (td + (0 + off), ts + 0)]

/-- The assignments of `n` runs of the macro body, latest first. -/
def line_copies (off : Nat) : Nat → Nat → Nat → List (Nat × Nat)
  | 0, _, _ => []
  | n + 1, ts, td => line_copies off n (ts + 8) (td + 32) ++ tile_copies ts td off

/-- The assignments of one band of four lines, latest first. -/
def band_copies (n pitch ts td : Nat) : List (Nat × Nat) :=
  line_copies 12 n (ts + pitch + pitch + pitch) td ++ line_copies 8 n (ts + pitch + pitch) td ++
    line_copies 4 n (ts + pitch) td ++ line_copies 0 n ts td

/-- The assignments of `nb` bands, latest first. -/
def all_copies (n pitch dstep : Nat) : Nat → Nat → Nat → List (Nat × Nat)
  | 0, _, _ => []
  | nb + 1, ts, td =>
    all_copies n pitch dstep nb (ts + pitch + pitch + pitch + pitch) (td + dstep) ++
      band_copies n pitch ts td

/-- A decoder outcome of 65536x65536 pixels, all `0xFF112233`. -/
def heap_huge : Heap :=
  { cells := Function.update (fun _ => none) 0 (some (List.replicate (2 ^ 32) 0xFF112233)),
    next := 1, requests := [0], released := [], oracle := fun _ => some fun _ => 0 }

/-- Collaborators whose PNG decoder succeeds with the 65536x65536 image. -/
def env_png_huge : Env :=
  { gfx_use_rgba := true, have_zlib := true,
    read_file := fun _ => ⟨true, some png_signature, 8⟩,
    rpng_load_image_argb := fun _ _ _ => (true, ⟨65536, 65536, some 0⟩, heap_huge) }

/-- The heap `heap_6x6` with an allocator that returns `NULL`. -/
def heap_6x6_oom : Heap := { heap_6x6 with oracle := fun _ => none }

/-- The block of `heap_6x6`. -/
def blk_6x6 : List Nat :=
  (List.range 36).map fun i => 0x01000100 * (i / 6) + 0x00010001 * (i % 6)

/-! ### Arithmetic of 32-bit values -/

theorem u32_of_lt {n : Nat} (h : n < 2 ^ 32) : u32 n = n :=
  Nat.mod_eq_of_lt h

theorem u32_lt (n : Nat) : u32 n < 2 ^ 32 :=
  Nat.mod_lt _ (by decide)

/-- A little-endian 16-bit header field is computed without wrap-around. -/
theorem le16_eq (lo hi : uint8_t) :
    u32 (lo.val + u32 (hi.val * 256)) = lo.val + 256 * hi.val := by
  have h1 := lo.isLt
  have h2 := hi.isLt
  unfold u32
  omega

theorem le16_le (lo hi : uint8_t) : lo.val + 256 * hi.val ≤ 65535 := by
  have h1 := lo.isLt
  have h2 := hi.isLt
  omega

/-- The product of two 16-bit dimensions fits an `unsigned`. -/
theorem dim_mul_lt {w h : Nat} (hw : w ≤ 65535) (hh : h ≤ 65535) : w * h < 2 ^ 32 := by
  have := Nat.mul_le_mul hw hh
  omega

/-- The requested byte count is `4 * width * height` reduced modulo `2 ^ 32`. -/
theorem rtga_alloc_size_eq {w h : Nat} (hw : w ≤ 65535) (hh : h ≤ 65535) :
    rtga_alloc_size w h = (4 * w * h) % 2 ^ 32 := by
  unfold rtga_alloc_size
  rw [u32_of_lt (dim_mul_lt hw hh)]
  unfold u32
  congr 1
  ring

/-! ### The store loop -/

theorem write_range_length (f : Nat → Nat) (count : Nat) :
    ∀ (i : Nat) (blk : List Nat), (write_range f count i blk).length = blk.length := by
  induction count with
  | zero => intro i blk; rfl
  | succ n ih =>
    intro i blk
    simp only [write_range]
    rw [ih, List.length_set]

theorem write_range_get (f : Nat → Nat) (count : Nat) :
    ∀ (i : Nat) (blk : List Nat) (j : Nat), i + count ≤ blk.length →
      (write_range f count i blk)[j]? =
        if i ≤ j ∧ j < i + count then some (f j) else blk[j]? := by
  induction count with
  | zero =>
    intro i blk j _
    have hn : ¬ (i ≤ j ∧ j < i + 0) := by omega
    rw [if_neg hn]
    rfl
  | succ n ih =>
    intro i blk j hle
    simp only [write_range]
    rw [ih (i + 1) (blk.set i (f i)) j (by rw [List.length_set]; omega)]
    by_cases hj : i = j
    · subst hj
      have h1 : ¬ (i + 1 ≤ i ∧ i < i + 1 + n) := by omega
      have h2 : i ≤ i ∧ i < i + (n + 1) := by omega
      have h3 : i < blk.length := by omega
      simp [h1, h2, h3]
    · by_cases hr : i + 1 ≤ j ∧ j < i + 1 + n
      · have h2 : i ≤ j ∧ j < i + (n + 1) := by omega
        simp [hr, h2]
      · have h2 : ¬ (i ≤ j ∧ j < i + (n + 1)) := by omega
        simp only [hr, h2, if_false]
        rw [List.getElem?_set_ne hj]

theorem Heap.put_self (h : Heap) (p : Nat) (blk : List Nat) (hb : h.cells p = some blk) :
    h.put p blk = h := by
  unfold Heap.put
  rw [← hb, Function.update_eq_self]

theorem Heap.put_put (h : Heap) (p : Nat) (b1 b2 : List Nat) :
    (h.put p b1).put p b2 = h.put p b2 := by
  simp [Heap.put]

theorem Heap.put_cells (h : Heap) (p : Nat) (blk : List Nat) :
    (h.put p blk).cells p = some blk := by
  simp [Heap.put]

theorem store32_eq (h : Heap) (p i v : Nat) (blk : List Nat) (hb : h.cells p = some blk) :
    store32 h p i v = if i < blk.length then some (h.put p (blk.set i v)) else none := by
  simp [store32, hb, Heap.put]

/-- A loop of stores `p[i] = f i` over `count` consecutive indices either writes
all of them, when they lie in the block, or faults. -/
theorem for_loop_store (f : Nat → Nat) (p : Nat) (count : Nat) :
    ∀ (i : Nat) (h : Heap) (blk : List Nat), h.cells p = some blk →
      for_loop (fun k hp => store32 hp p k (f k)) count i h =
        if count = 0 ∨ i + count ≤ blk.length then
          some (h.put p (write_range f count i blk))
        else none := by
  induction count with
  | zero =>
    intro i h blk hb
    simp [for_loop, write_range, Heap.put_self h p blk hb]
  | succ n ih =>
    intro i h blk hb
    simp only [for_loop]
    rw [store32_eq h p i (f i) blk hb]
    by_cases hi : i < blk.length
    · simp only [hi, if_true]
      rw [ih (i + 1) (h.put p (blk.set i (f i))) (blk.set i (f i)) (Heap.put_cells _ _ _)]
      rw [List.length_set, Heap.put_put]
      by_cases hn : n = 0
      · subst hn
        have : i + (0 + 1) ≤ blk.length := by omega
        simp [this, write_range]
      · by_cases hle : i + 1 + n ≤ blk.length
        · have : i + (n + 1) ≤ blk.length := by omega
          simp [hle, this, write_range]
        · have : ¬ (i + (n + 1) ≤ blk.length) := by omega
          simp [hn, hle, this]
    · have : ¬ (i + (n + 1) ≤ blk.length) := by omega
      simp [hi, this]

/-! ### The TGA decoder -/

theorem malloc_some (h : Heap) (size : Nat) (init : Nat → Nat)
    (ho : h.oracle h.requests.length = some init) :
    malloc h size =
      (some h.next,
        { h with
          cells := Function.update h.cells h.next
            (some ((List.range (size / 4)).map fun i => u32 (init i)))
          next := h.next + 1
          requests := size :: h.requests }) := by
  simp [malloc, ho]

theorem malloc_none (h : Heap) (size : Nat) (ho : h.oracle h.requests.length = none) :
    malloc h size = (none, { h with requests := size :: h.requests }) := by
  simp [malloc, ho]

/-- Closed form of a run of the decoder on a buffer with type byte 2 and depth
24 or 32: allocation failure returns false; otherwise the loop either fills the
block or faults. -/
theorem rtga_eval (buf : Bytes) (out_img : texture_image)
    (a_shift r_shift g_shift b_shift : Nat) (h : Heap)
    (htype : (buf 2).val = 2) (hbits : (buf 16).val = 24 ∨ (buf 16).val = 32) :
    rtga_image_load_shift buf out_img a_shift r_shift g_shift b_shift h =
      (let w := (buf 12).val + 256 * (buf 13).val
       let ht := (buf 14).val + 256 * (buf 15).val
       let size := rtga_alloc_size w ht
       match h.oracle h.requests.length with
       | none => some (false, ⟨w, ht, none⟩, (malloc h size).2)
       | some init =>
         if w * ht = 0 ∨ w * ht ≤ size / 4 then
           some (true, ⟨w, ht, some h.next⟩,
             (malloc h size).2.put h.next
               (write_range
                 (rtga_pixel (fun k => buf (18 + k)) (buf 16).val
                   (if (buf 16).val = 32 then 4 else 3) a_shift r_shift g_shift b_shift)
                 (w * ht) 0 ((List.range (size / 4)).map fun i => u32 (init i))))
         else none) := by
  have hnb : ¬ ((buf 16).val ≠ 32 ∧ (buf 16).val ≠ 24) := by omega
  have hwh : u32 (((buf 12).val + 256 * (buf 13).val) * ((buf 14).val + 256 * (buf 15).val))
      = ((buf 12).val + 256 * (buf 13).val) * ((buf 14).val + 256 * (buf 15).val) :=
    u32_of_lt (dim_mul_lt (le16_le _ _) (le16_le _ _))
  unfold rtga_image_load_shift
  simp only [htype, ne_eq, not_true_eq_false, if_false, Nat.add_zero, le16_eq, hwh]
  cases ho : h.oracle h.requests.length with
  | none =>
    simp only [malloc_none h _ ho]
  | some init =>
    simp only [malloc_some h _ init ho]
    have hnb2 : ¬ (¬ (buf 16).val = 32 ∧ ¬ (buf 16).val = 24) := by omega
    simp only [hnb2, if_false]
    rw [for_loop_store _ h.next _ 0 _ ((List.range
      (rtga_alloc_size ((buf 12).val + 256 * (buf 13).val)
        ((buf 14).val + 256 * (buf 15).val) / 4)).map fun i => u32 (init i)) (by simp)]
    simp only [List.length_map, List.length_range, Nat.zero_add, Nat.reduceAdd]
    by_cases hc : ((buf 12).val + 256 * (buf 13).val) * ((buf 14).val + 256 * (buf 15).val) = 0 ∨
        ((buf 12).val + 256 * (buf 13).val) * ((buf 14).val + 256 * (buf 15).val) ≤
          rtga_alloc_size ((buf 12).val + 256 * (buf 13).val)
            ((buf 14).val + 256 * (buf 15).val) / 4
    · simp only [hc, if_true]
    · simp only [hc, if_false]

theorem or_mod_two_pow (x y n : Nat) : (x ||| y) % 2 ^ n = x % 2 ^ n ||| y % 2 ^ n := by
  apply Nat.eq_of_testBit_eq
  intro i
  simp only [Nat.testBit_mod_two_pow, Nat.testBit_or]
  cases decide (i < n) <;> simp

/-- The packed word is the bitwise OR of the four shifted channels, reduced
modulo `2 ^ 32`. -/
theorem pack_shift_eq_mod (a r g b sa sr sg sb : Nat) :
    pack_shift a r g b sa sr sg sb =
      ((a <<< sa) ||| (r <<< sr) ||| (g <<< sg) ||| (b <<< sb)) % 2 ^ 32 := by
  simp only [pack_shift, u32, or_mod_two_pow]

/-- Without wrap-around of the byte index, the loop body reads the bytes of
pixel `i` at offsets `18 + i * bits_mul + 0 .. 3` of the file. -/
theorem rtga_pixel_eq (buf : Bytes) (bits k sa sr sg sb i : Nat)
    (hk : k = 3 ∨ k = 4) (hi : 4 * i + 3 < 2 ^ 32) :
    rtga_pixel (fun j => buf (18 + j)) bits k sa sr sg sb i =
      pack_shift (if bits = 24 then 0xff else (buf (18 + i * k + 3)).val)
        (buf (18 + i * k + 2)).val (buf (18 + i * k + 1)).val (buf (18 + i * k + 0)).val
        sa sr sg sb := by
  have h0 : u32 (i * k) = i * k := by
    apply u32_of_lt
    rcases hk with rfl | rfl <;> omega
  have h1 : ∀ d, d ≤ 3 → u32 (i * k + d) = i * k + d := by
    intro d hd
    apply u32_of_lt
    rcases hk with rfl | rfl <;> omega
  simp only [rtga_pixel, h0, h1 0 (by omega), h1 1 (by omega), h1 2 (by omega),
    h1 3 (by omega), Nat.add_assoc]

/-- A run of the decoder on a buffer with type byte 2 and depth 24 or 32, when
the allocator returns a block and the byte count does not wrap: the call
returns true, the block at the fresh address holds `width * height` words and
word `i` is the packed pixel `i` of the file. -/
theorem rtga_run_ok (buf : Bytes) (out_img : texture_image)
    (a_shift r_shift g_shift b_shift : Nat) (h : Heap) (init : Nat → Nat)
    (htype : (buf 2).val = 2)
    (hbits : (buf 16).val = 24 ∨ (buf 16).val = 32)
    (halloc : h.oracle h.requests.length = some init)
    (hsize : 4 * (((buf 12).val + 256 * (buf 13).val) *
      ((buf 14).val + 256 * (buf 15).val)) < 2 ^ 32) :
    ∃ (h1 : Heap) (blk : List Nat),
      rtga_image_load_shift buf out_img a_shift r_shift g_shift b_shift h =
        some (true,
          ⟨(buf 12).val + 256 * (buf 13).val, (buf 14).val + 256 * (buf 15).val,
            some h.next⟩, h1) ∧
      h1.cells h.next = some blk ∧
      blk.length =
        ((buf 12).val + 256 * (buf 13).val) * ((buf 14).val + 256 * (buf 15).val) ∧
      ∀ i, i < ((buf 12).val + 256 * (buf 13).val) * ((buf 14).val + 256 * (buf 15).val) →
        blk[i]? = some
          (pack_shift
            (if (buf 16).val = 24 then 0xff
              else (buf (18 + i * (if (buf 16).val = 32 then 4 else 3) + 3)).val)
            (buf (18 + i * (if (buf 16).val = 32 then 4 else 3) + 2)).val
            (buf (18 + i * (if (buf 16).val = 32 then 4 else 3) + 1)).val
            (buf (18 + i * (if (buf 16).val = 32 then 4 else 3) + 0)).val
            a_shift r_shift g_shift b_shift) := by
  have hw := le16_le (buf 12) (buf 13)
  have hh := le16_le (buf 14) (buf 15)
  have hsz : rtga_alloc_size ((buf 12).val + 256 * (buf 13).val)
      ((buf 14).val + 256 * (buf 15).val) / 4 =
      ((buf 12).val + 256 * (buf 13).val) * ((buf 14).val + 256 * (buf 15).val) := by
    rw [rtga_alloc_size_eq hw hh, Nat.mul_assoc, Nat.mod_eq_of_lt hsize]
    omega
  rw [rtga_eval buf out_img a_shift r_shift g_shift b_shift h htype hbits]
  simp only [halloc, hsz, le_refl, or_true, if_true]
  refine ⟨_, _, rfl, Heap.put_cells _ _ _, ?_, ?_⟩
  · rw [write_range_length, List.length_map, List.length_range]
  · intro i hi
    rw [write_range_get _ _ _ _ _ (by simp), if_pos (by omega)]
    have hk : (if (buf 16).val = 32 then 4 else 3) = 3 ∨
        (if (buf 16).val = 32 then 4 else 3) = 4 := by
      rcases hbits with hb | hb <;> simp [hb]
    rw [rtga_pixel_eq buf _ _ _ _ _ _ i hk (by omega)]

/-- A call of the decoder that returns true had type byte 2 in the buffer, got a
block from the allocator, and its byte count did not wrap. -/
theorem rtga_true_inv (buf : Bytes) (out_img : texture_image)
    (a_shift r_shift g_shift b_shift : Nat) (h : Heap) (img1 : texture_image) (h1 : Heap)
    (hbits : (buf 16).val = 24 ∨ (buf 16).val = 32)
    (hret : rtga_image_load_shift buf out_img a_shift r_shift g_shift b_shift h =
      some (true, img1, h1)) :
    (buf 2).val = 2 ∧ (∃ init, h.oracle h.requests.length = some init) ∧
      4 * (((buf 12).val + 256 * (buf 13).val) *
        ((buf 14).val + 256 * (buf 15).val)) < 2 ^ 32 := by
  have htype : (buf 2).val = 2 := by
    by_contra hne
    simp [rtga_image_load_shift, hne] at hret
  refine ⟨htype, ?_⟩
  rw [rtga_eval buf out_img a_shift r_shift g_shift b_shift h htype hbits] at hret
  cases ho : h.oracle h.requests.length with
  | none => simp [ho] at hret
  | some init =>
    refine ⟨⟨init, rfl⟩, ?_⟩
    simp only [ho] at hret
    by_contra hlt
    have hw := le16_le (buf 12) (buf 13)
    have hh := le16_le (buf 14) (buf 15)
    have hsz := rtga_alloc_size_eq hw hh
    rw [Nat.mul_assoc] at hsz
    have hc : ¬ (((buf 12).val + 256 * (buf 13).val) * ((buf 14).val + 256 * (buf 15).val) = 0 ∨
        ((buf 12).val + 256 * (buf 13).val) * ((buf 14).val + 256 * (buf 15).val) ≤
          rtga_alloc_size ((buf 12).val + 256 * (buf 13).val)
            ((buf 14).val + 256 * (buf 15).val) / 4) := by
      rw [hsz]
      omega
    rw [if_neg hc] at hret
    exact Option.noConfusion hret

/-- C5 (amended): on a buffer with type byte 2 and depth 24 or 32, when the
allocator returns a block and `4 * width * height` does not wrap, the decoder
returns true, the descriptor holds the header's little-endian width and height,
and output word `i` packs the bytes of file pixel `i`, in file order: B, G, R at
offsets `18 + i * k + 0, 1, 2` with `k = depth / 8`, and A at `18 + i * 4 + 3`
for depth 32, `0xFF` for depth 24. -/
theorem rtga_image_load_shift_pixels (buf : Bytes) (out_img : texture_image)
    (a_shift r_shift g_shift b_shift : Nat) (h : Heap) (init : Nat → Nat)
    (htype : (buf 2).val = 2)
    (hbits : (buf 16).val = 24 ∨ (buf 16).val = 32)
    (halloc : h.oracle h.requests.length = some init)
    (hsize : 4 * (((buf 12).val + 256 * (buf 13).val) *
      ((buf 14).val + 256 * (buf 15).val)) < 2 ^ 32) :
    ∃ (p : Nat) (h1 : Heap) (blk : List Nat),
      rtga_image_load_shift buf out_img a_shift r_shift g_shift b_shift h =
        some (true,
          ⟨(buf 12).val + 256 * (buf 13).val, (buf 14).val + 256 * (buf 15).val, some p⟩,
          h1) ∧
      h1.cells p = some blk ∧
      blk.length =
        ((buf 12).val + 256 * (buf 13).val) * ((buf 14).val + 256 * (buf 15).val) ∧
      ∀ i, i < ((buf 12).val + 256 * (buf 13).val) * ((buf 14).val + 256 * (buf 15).val) →
        blk[i]? = some
          ((((if (buf 16).val = 32 then (buf (18 + i * 4 + 3)).val else 0xFF) <<< a_shift) |||
            ((buf (18 + i * ((buf 16).val / 8) + 2)).val <<< r_shift) |||
            ((buf (18 + i * ((buf 16).val / 8) + 1)).val <<< g_shift) |||
            ((buf (18 + i * ((buf 16).val / 8) + 0)).val <<< b_shift)) % 2 ^ 32) := by
  obtain ⟨h1, blk, hrun, hcell, hlen, hpix⟩ :=
    rtga_run_ok buf out_img a_shift r_shift g_shift b_shift h init htype hbits halloc hsize
  refine ⟨h.next, h1, blk, hrun, hcell, hlen, ?_⟩
  intro i hi
  rw [hpix i hi, pack_shift_eq_mod]
  rcases hbits with hb | hb <;> simp [hb]

/-- C5 (counterexample): on a well-formed 2x1 24-bit buffer the decoder returns
false when the allocator returns `NULL`. -/
theorem rtga_image_load_shift_alloc_failure :
    (tga_2x1_24 2).val = 2 ∧ (tga_2x1_24 16).val = 24 ∧
      (rtga_image_load_shift tga_2x1_24 img_empty 24 16 8 0 heap_oom).map
        (fun r => (r.1, r.2.1.pixels)) = some (false, none) := by
  decide

/-- C5 (witness): the 2x1 24-bit file decodes to two opaque words. -/
theorem rtga_image_load_shift_pixels_witness :
    ∃ (p : Nat) (h1 : Heap) (blk : List Nat),
      rtga_image_load_shift tga_2x1_24 img_empty 24 16 8 0 heap_ok =
        some (true, ⟨2, 1, some p⟩, h1) ∧
      h1.cells p = some blk ∧ blk.length = 2 ∧
      ∀ i, i < 2 →
        blk[i]? = some
          ((((if (tga_2x1_24 16).val = 32 then (tga_2x1_24 (18 + i * 4 + 3)).val else 0xFF)
              <<< 24) |||
            ((tga_2x1_24 (18 + i * ((tga_2x1_24 16).val / 8) + 2)).val <<< 16) |||
            ((tga_2x1_24 (18 + i * ((tga_2x1_24 16).val / 8) + 1)).val <<< 8) |||
            ((tga_2x1_24 (18 + i * ((tga_2x1_24 16).val / 8) + 0)).val <<< 0)) % 2 ^ 32) :=
  rtga_image_load_shift_pixels tga_2x1_24 img_empty 24 16 8 0 heap_ok (fun _ => 0)
    (by decide) (by decide) rfl (by decide)

/-! ### Channels of a packed word -/

theorem shiftRight_or (x y s : Nat) : (x ||| y) >>> s = x >>> s ||| y >>> s := by
  apply Nat.eq_of_testBit_eq
  intro i
  simp only [Nat.testBit_shiftRight, Nat.testBit_or]

theorem chan_eq (p s : Nat) : (p >>> s) &&& 0xFF = p / 2 ^ s % 256 := by
  rw [Nat.shiftRight_eq_div_pow]
  exact Nat.and_pow_two_sub_one_eq_mod _ 8

theorem chan_or (x y s : Nat) :
    ((x ||| y) >>> s) &&& 0xFF = ((x >>> s) &&& 0xFF) ||| ((y >>> s) &&& 0xFF) := by
  rw [shiftRight_or, Nat.and_comm, Nat.and_or_distrib_left, Nat.and_comm, Nat.and_comm 255]

/-- The byte found at position `s` of a byte shifted to position `t`. -/
theorem chan_shl (c t s : Nat) (hc : c < 256) (ht : t = 0 ∨ t = 8 ∨ t = 16 ∨ t = 24)
    (hs : s = 0 ∨ s = 8 ∨ s = 16 ∨ s = 24) :
    (u32 (c <<< t) >>> s) &&& 0xFF = if t = s then c else 0 := by
  rw [chan_eq, Nat.shiftLeft_eq, u32]
  rcases ht with rfl | rfl | rfl | rfl <;> rcases hs with rfl | rfl | rfl | rfl <;>
    simp <;> omega

/-- With four distinct shifts out of 0, 8, 16, 24 every channel of the packed
word is the byte that was packed there. -/
theorem chan_pack_shift (a r g b sa sr sg sb : Nat)
    (ha : a < 256) (hr : r < 256) (hg : g < 256) (hb : b < 256)
    (hmem : ∀ s ∈ [sa, sr, sg, sb], s = 0 ∨ s = 8 ∨ s = 16 ∨ s = 24)
    (hnd : [sa, sr, sg, sb].Nodup) :
    ((pack_shift a r g b sa sr sg sb >>> sa) &&& 0xFF = a) ∧
    ((pack_shift a r g b sa sr sg sb >>> sr) &&& 0xFF = r) ∧
    ((pack_shift a r g b sa sr sg sb >>> sg) &&& 0xFF = g) ∧
    ((pack_shift a r g b sa sr sg sb >>> sb) &&& 0xFF = b) := by
  have hsa := hmem sa (by simp)
  have hsr := hmem sr (by simp)
  have hsg := hmem sg (by simp)
  have hsb := hmem sb (by simp)
  simp only [List.nodup_cons, List.mem_cons, List.mem_singleton, not_or, List.not_mem_nil,
    not_false_eq_true, List.nodup_nil, and_true] at hnd
  obtain ⟨⟨h1, h2, h3⟩, ⟨h4, h5⟩, h6⟩ := hnd
  have key : ∀ s, (s = 0 ∨ s = 8 ∨ s = 16 ∨ s = 24) →
      (pack_shift a r g b sa sr sg sb >>> s) &&& 0xFF =
        (if sa = s then a else 0) ||| (if sr = s then r else 0) |||
          (if sg = s then g else 0) ||| (if sb = s then b else 0) := by
    intro s hs
    simp only [pack_shift, chan_or]
    rw [chan_shl a sa s ha hsa hs, chan_shl r sr s hr hsr hs, chan_shl g sg s hg hsg hs,
      chan_shl b sb s hb hsb hs]
  rw [key sa hsa, key sr hsr, key sg hsg, key sb hsb]
  refine ⟨?_, ?_, ?_, ?_⟩
  · simp [Ne.symm h1, Ne.symm h2, Ne.symm h3]
  · simp [h1, Ne.symm h4, Ne.symm h5]
  · simp [h2, h4, Ne.symm h6]
  · simp [h3, h5, h6]

theorem pack_shift_lt (a r g b sa sr sg sb : Nat) :
    pack_shift a r g b sa sr sg sb < 2 ^ 32 := by
  unfold pack_shift
  exact Nat.or_lt_two_pow (Nat.or_lt_two_pow (Nat.or_lt_two_pow (u32_lt _) (u32_lt _))
    (u32_lt _)) (u32_lt _)

/-- A 32-bit word is determined by its four bytes. -/
theorem word_ext (x y : Nat) (hx : x < 2 ^ 32) (hy : y < 2 ^ 32)
    (h : ∀ s ∈ [0, 8, 16, 24], (x >>> s) &&& 0xFF = (y >>> s) &&& 0xFF) : x = y := by
  have h0 := h 0 (by simp)
  have h8 := h 8 (by simp)
  have h16 := h 16 (by simp)
  have h24 := h 24 (by simp)
  rw [chan_eq, chan_eq] at h0 h8 h16 h24
  norm_num at h0 h8 h16 h24
  omega

/-- Packing the four channels of a 32-bit word with the shifts they were taken
from gives the word back. -/
theorem pack_shift_chan (x sa sr sg sb : Nat) (hx : x < 2 ^ 32)
    (hmem : ∀ s ∈ [sa, sr, sg, sb], s = 0 ∨ s = 8 ∨ s = 16 ∨ s = 24)
    (hnd : [sa, sr, sg, sb].Nodup) :
    pack_shift ((x >>> sa) &&& 0xFF) ((x >>> sr) &&& 0xFF) ((x >>> sg) &&& 0xFF)
      ((x >>> sb) &&& 0xFF) sa sr sg sb = x := by
  have hlt : ∀ s, (x >>> s) &&& 0xFF < 256 := by
    intro s
    rw [chan_eq]
    omega
  obtain ⟨ca, cr, cg, cb⟩ := chan_pack_shift _ _ _ _ sa sr sg sb (hlt sa) (hlt sr) (hlt sg)
    (hlt sb) hmem hnd
  apply word_ext _ _ (pack_shift_lt _ _ _ _ _ _ _ _) hx
  have hsa := hmem sa (by simp)
  have hsr := hmem sr (by simp)
  have hsg := hmem sg (by simp)
  have hsb := hmem sb (by simp)
  simp only [List.nodup_cons, List.mem_cons, List.mem_singleton, not_or, List.not_mem_nil,
    not_false_eq_true, List.nodup_nil, and_true] at hnd
  intro s hs
  simp only [List.mem_cons, List.mem_singleton, List.not_mem_nil, or_false] at hs
  have hcover : s = sa ∨ s = sr ∨ s = sg ∨ s = sb := by omega
  rcases hcover with rfl | rfl | rfl | rfl
  · exact ca
  · exact cr
  · exact cg
  · exact cb

/-! ### Claims on the TGA decoder -/

/-- C6: on a buffer with type byte 2 and depth 24, decoded with four distinct
shifts out of 0, 8, 16, 24, the decoder returns true as soon as the allocator
returns a block and the byte count does not wrap; and whenever it returns true
the pixel buffer holds `width * height` words and every one of them has alpha
channel `(p >> a_shift) & 0xFF = 0xFF`, whatever the bytes of the file. -/
theorem rtga_alpha_opaque_24 (buf : Bytes) (out_img : texture_image)
    (a_shift r_shift g_shift b_shift : Nat) (h : Heap)
    (htype : (buf 2).val = 2)
    (hbits : (buf 16).val = 24)
    (hmem : ∀ s ∈ [a_shift, r_shift, g_shift, b_shift], s = 0 ∨ s = 8 ∨ s = 16 ∨ s = 24)
    (hnd : [a_shift, r_shift, g_shift, b_shift].Nodup) :
    (∀ init, h.oracle h.requests.length = some init →
      4 * (((buf 12).val + 256 * (buf 13).val) *
        ((buf 14).val + 256 * (buf 15).val)) < 2 ^ 32 →
      ∃ (img1 : texture_image) (h1 : Heap),
        rtga_image_load_shift buf out_img a_shift r_shift g_shift b_shift h =
          some (true, img1, h1)) ∧
    (∀ (img1 : texture_image) (h1 : Heap),
      rtga_image_load_shift buf out_img a_shift r_shift g_shift b_shift h =
        some (true, img1, h1) →
      ∃ (p : Nat) (blk : List Nat),
        img1.pixels = some p ∧ h1.cells p = some blk ∧
        blk.length = img1.width * img1.height ∧
        ∀ x ∈ blk, (x >>> a_shift) &&& 0xFF = 0xFF) := by
  constructor
  · intro init halloc hsize
    obtain ⟨h2, _, hrun, _⟩ :=
      rtga_run_ok buf out_img a_shift r_shift g_shift b_shift h init htype (Or.inl hbits)
        halloc hsize
    exact ⟨_, h2, hrun⟩
  · intro img1 h1 hret
    obtain ⟨_, ⟨init, halloc⟩, hsize⟩ :=
      rtga_true_inv buf out_img a_shift r_shift g_shift b_shift h img1 h1 (Or.inl hbits) hret
    obtain ⟨h2, blk, hrun, hcell, hlen, hpix⟩ :=
      rtga_run_ok buf out_img a_shift r_shift g_shift b_shift h init htype (Or.inl hbits)
        halloc hsize
    rw [hrun] at hret
    simp only [Option.some.injEq, Prod.mk.injEq, true_and] at hret
    obtain ⟨himg, hheap⟩ := hret
    subst himg hheap
    refine ⟨h.next, blk, rfl, hcell, hlen, ?_⟩
    intro x hx
    obtain ⟨i, hi, hget⟩ := List.getElem_of_mem hx
    have hi2 := hpix i (hlen ▸ hi)
    rw [List.getElem?_eq_getElem hi, hget] at hi2
    have hx2 := Option.some.inj hi2
    rw [if_pos hbits] at hx2
    rw [hx2]
    exact (chan_pack_shift 0xff _ _ _ a_shift r_shift g_shift b_shift (by decide)
      (Fin.isLt _) (Fin.isLt _) (Fin.isLt _) hmem hnd).1

/-- C6 (witness): the 2x1 24-bit file decoded with the shifts of the RGBA
configuration: the run returns true and both words are opaque. -/
theorem rtga_alpha_opaque_24_witness :
    (∃ (img1 : texture_image) (h1 : Heap),
      rtga_image_load_shift tga_2x1_24 img_empty 24 0 8 16 heap_ok =
        some (true, img1, h1)) ∧
    ∃ (p : Nat) (blk : List Nat),
      (some 0 : Option Nat) = some p ∧
      (heap_after (rtga_image_load_shift tga_2x1_24 img_empty 24 0 8 16 heap_ok)
        heap_ok).cells p = some blk ∧
      blk.length = 2 * 1 ∧
      ∀ x ∈ blk, (x >>> 24) &&& 0xFF = 0xFF :=
  ⟨(rtga_alpha_opaque_24 tga_2x1_24 img_empty 24 0 8 16 heap_ok
      (by decide) (by decide) (by decide) (by decide)).1 (fun _ => 0) rfl (by decide),
    (rtga_alpha_opaque_24 tga_2x1_24 img_empty 24 0 8 16 heap_ok
      (by decide) (by decide) (by decide) (by decide)).2 ⟨2, 1, some 0⟩
      (heap_after (rtga_image_load_shift tga_2x1_24 img_empty 24 0 8 16 heap_ok) heap_ok)
      rfl⟩

/-- C7: on a buffer with type byte 2 and depth 32, decoded with four distinct
shifts out of 0, 8, 16, 24, the decoder returns true as soon as the allocator
returns a block and the byte count does not wrap; and whenever it returns true
every decoded word `x` of index `i` carries the file's bytes of pixel `i`: its
channels at `b_shift`, `g_shift`, `r_shift`, `a_shift` are the bytes at offsets
`18 + 4 * i + 0, 1, 2, 3`; and when those bytes are the channels of a 32-bit
word `w` taken with the same shifts, the decoded word is `w`. -/
theorem rtga_channels_roundtrip_32 (buf : Bytes) (out_img : texture_image)
    (a_shift r_shift g_shift b_shift : Nat) (h : Heap)
    (htype : (buf 2).val = 2)
    (hbits : (buf 16).val = 32)
    (hmem : ∀ s ∈ [a_shift, r_shift, g_shift, b_shift], s = 0 ∨ s = 8 ∨ s = 16 ∨ s = 24)
    (hnd : [a_shift, r_shift, g_shift, b_shift].Nodup) :
    (∀ init, h.oracle h.requests.length = some init →
      4 * (((buf 12).val + 256 * (buf 13).val) *
        ((buf 14).val + 256 * (buf 15).val)) < 2 ^ 32 →
      ∃ (img1 : texture_image) (h1 : Heap),
        rtga_image_load_shift buf out_img a_shift r_shift g_shift b_shift h =
          some (true, img1, h1)) ∧
    (∀ (img1 : texture_image) (h1 : Heap),
      rtga_image_load_shift buf out_img a_shift r_shift g_shift b_shift h =
        some (true, img1, h1) →
      ∃ (p : Nat) (blk : List Nat),
        img1.pixels = some p ∧ h1.cells p = some blk ∧
        blk.length = img1.width * img1.height ∧
        ∀ i, i < img1.width * img1.height →
          ∃ x, blk[i]? = some x ∧
            (x >>> b_shift) &&& 0xFF = (buf (18 + i * 4 + 0)).val ∧
            (x >>> g_shift) &&& 0xFF = (buf (18 + i * 4 + 1)).val ∧
            (x >>> r_shift) &&& 0xFF = (buf (18 + i * 4 + 2)).val ∧
            (x >>> a_shift) &&& 0xFF = (buf (18 + i * 4 + 3)).val ∧
            ∀ w, w < 2 ^ 32 →
              (buf (18 + i * 4 + 0)).val = (w >>> b_shift) &&& 0xFF →
              (buf (18 + i * 4 + 1)).val = (w >>> g_shift) &&& 0xFF →
              (buf (18 + i * 4 + 2)).val = (w >>> r_shift) &&& 0xFF →
              (buf (18 + i * 4 + 3)).val = (w >>> a_shift) &&& 0xFF →
              x = w) := by
  constructor
  · intro init halloc hsize
    obtain ⟨h2, _, hrun, _⟩ :=
      rtga_run_ok buf out_img a_shift r_shift g_shift b_shift h init htype (Or.inr hbits)
        halloc hsize
    exact ⟨_, h2, hrun⟩
  · intro img1 h1 hret
    obtain ⟨_, ⟨init, halloc⟩, hsize⟩ :=
      rtga_true_inv buf out_img a_shift r_shift g_shift b_shift h img1 h1 (Or.inr hbits) hret
    obtain ⟨h2, blk, hrun, hcell, hlen, hpix⟩ :=
      rtga_run_ok buf out_img a_shift r_shift g_shift b_shift h init htype (Or.inr hbits)
        halloc hsize
    rw [hrun] at hret
    simp only [Option.some.injEq, Prod.mk.injEq, true_and] at hret
    obtain ⟨himg, hheap⟩ := hret
    subst himg hheap
    refine ⟨h.next, blk, rfl, hcell, hlen, ?_⟩
    intro i hi
    have hne : ¬ (buf 16).val = 24 := by omega
    have hp := hpix i hi
    rw [if_neg hne, if_pos hbits] at hp
    obtain ⟨ca, cr, cg, cb⟩ := chan_pack_shift (buf (18 + i * 4 + 3)).val
      (buf (18 + i * 4 + 2)).val (buf (18 + i * 4 + 1)).val (buf (18 + i * 4 + 0)).val
      a_shift r_shift g_shift b_shift (Fin.isLt _) (Fin.isLt _) (Fin.isLt _) (Fin.isLt _)
      hmem hnd
    refine ⟨_, hp, cb, cg, cr, ca, ?_⟩
    intro w hw eb eg er ea
    rw [eb, eg, er, ea]
    exact pack_shift_chan w a_shift r_shift g_shift b_shift hw hmem hnd

/-- C7 (witness): the 1x2 32-bit file decoded with the shifts of the RGBA
configuration: the run returns true and both words carry their file bytes. -/
theorem rtga_channels_roundtrip_32_witness :
    (∃ (img1 : texture_image) (h1 : Heap),
      rtga_image_load_shift tga_1x2_32 img_empty 24 0 8 16 heap_ok =
        some (true, img1, h1)) ∧
    ∃ (p : Nat) (blk : List Nat),
      (some 0 : Option Nat) = some p ∧
      (heap_after (rtga_image_load_shift tga_1x2_32 img_empty 24 0 8 16 heap_ok)
        heap_ok).cells p = some blk ∧
      blk.length = 1 * 2 ∧
      ∀ i, i < 1 * 2 →
        ∃ x, blk[i]? = some x ∧
          (x >>> 16) &&& 0xFF = (tga_1x2_32 (18 + i * 4 + 0)).val ∧
          (x >>> 8) &&& 0xFF = (tga_1x2_32 (18 + i * 4 + 1)).val ∧
          (x >>> 0) &&& 0xFF = (tga_1x2_32 (18 + i * 4 + 2)).val ∧
          (x >>> 24) &&& 0xFF = (tga_1x2_32 (18 + i * 4 + 3)).val ∧
          ∀ w, w < 2 ^ 32 →
            (tga_1x2_32 (18 + i * 4 + 0)).val = (w >>> 16) &&& 0xFF →
            (tga_1x2_32 (18 + i * 4 + 1)).val = (w >>> 8) &&& 0xFF →
            (tga_1x2_32 (18 + i * 4 + 2)).val = (w >>> 0) &&& 0xFF →
            (tga_1x2_32 (18 + i * 4 + 3)).val = (w >>> 24) &&& 0xFF →
            x = w :=
  ⟨(rtga_channels_roundtrip_32 tga_1x2_32 img_empty 24 0 8 16 heap_ok
      (by decide) (by decide) (by decide) (by decide)).1 (fun _ => 0) rfl (by decide),
    (rtga_channels_roundtrip_32 tga_1x2_32 img_empty 24 0 8 16 heap_ok
      (by decide) (by decide) (by decide) (by decide)).2 ⟨1, 2, some 0⟩
      (heap_after (rtga_image_load_shift tga_1x2_32 img_empty 24 0 8 16 heap_ok) heap_ok)
      rfl⟩

/-- C8 (failing input): for the header of a 32768x32768 image of depth 32 the
byte count is `0`, not `4 * 32768 * 32768 = 2 ^ 32`: the run logs a request of
0 bytes (seen on an allocator that returns `NULL`), and when the allocator
returns that empty block the first store of the loop is out of bounds. -/
theorem rtga_alloc_size_wraps :
    rtga_alloc_size 32768 32768 = 0 ∧ 4 * 32768 * 32768 = 2 ^ 32 ∧
      (rtga_image_load_shift tga_32768_sq_32 img_empty 24 16 8 0 heap_oom).map
        (fun r => (r.1, r.2.1.width, r.2.1.height, r.2.2.requests)) =
          some (false, 32768, 32768, [0]) ∧
      rtga_image_load_shift tga_32768_sq_32 img_empty 24 16 8 0 heap_ok = none := by
  refine ⟨by decide, by decide, by decide, ?_⟩
  rw [rtga_eval tga_32768_sq_32 img_empty 24 16 8 0 heap_ok (by decide) (by decide)]
  have hc : ¬ (((tga_32768_sq_32 12).val + 256 * (tga_32768_sq_32 13).val) *
      ((tga_32768_sq_32 14).val + 256 * (tga_32768_sq_32 15).val) = 0 ∨
      ((tga_32768_sq_32 12).val + 256 * (tga_32768_sq_32 13).val) *
        ((tga_32768_sq_32 14).val + 256 * (tga_32768_sq_32 15).val) ≤
        rtga_alloc_size ((tga_32768_sq_32 12).val + 256 * (tga_32768_sq_32 13).val)
          ((tga_32768_sq_32 14).val + 256 * (tga_32768_sq_32 15).val) / 4) := by
    decide
  simp only [heap_ok, if_neg hc]

/-- C9: on a buffer whose type byte is not 2 the decoder returns false and hands
back the descriptor and the heap exactly as they were; in particular the log of
allocator requests is unchanged, so `malloc` was not called. -/
theorem rtga_rejects_type (buf : Bytes) (out_img : texture_image)
    (a_shift r_shift g_shift b_shift : Nat) (h : Heap) (htype : (buf 2).val ≠ 2) :
    rtga_image_load_shift buf out_img a_shift r_shift g_shift b_shift h =
      some (false, out_img, h) := by
  simp [rtga_image_load_shift, htype]

/-- C9 (witness): a run-length encoded file, on a populated descriptor. -/
theorem rtga_rejects_type_witness :
    rtga_image_load_shift tga_rle ⟨7, 5, some 3⟩ 24 16 8 0 heap_ok =
      some (false, ⟨7, 5, some 3⟩, heap_ok) :=
  rtga_rejects_type tga_rle ⟨7, 5, some 3⟩ 24 16 8 0 heap_ok (by decide)

/-- C10: on a buffer with type byte 2 whose depth byte is neither 24 nor 32 the
decoder returns false with a null `pixels` field.  The block it obtained from
the allocator, if any, was passed to `free` and is no longer live, and no word
was stored: every other address holds what it held on entry. -/
theorem rtga_rejects_depth (buf : Bytes) (out_img : texture_image)
    (a_shift r_shift g_shift b_shift : Nat) (h : Heap)
    (htype : (buf 2).val = 2) (h24 : (buf 16).val ≠ 24) (h32 : (buf 16).val ≠ 32) :
    ∃ (img1 : texture_image) (h1 : Heap),
      rtga_image_load_shift buf out_img a_shift r_shift g_shift b_shift h =
        some (false, img1, h1) ∧
      img1.pixels = none ∧
      (h.oracle h.requests.length = none →
        h1.cells = h.cells ∧ h1.released = h.released) ∧
      (∀ init, h.oracle h.requests.length = some init →
        h1.cells = Function.update h.cells h.next none ∧
        h1.released = h.next :: h.released) := by
  unfold rtga_image_load_shift
  simp only [htype, ne_eq, not_true_eq_false, if_false]
  cases ho : h.oracle h.requests.length with
  | none =>
    simp only [malloc_none h _ ho]
    exact ⟨_, _, rfl, rfl, fun _ => ⟨rfl, rfl⟩, fun init hi => Option.noConfusion hi⟩
  | some init =>
    simp only [malloc_some h _ init ho, Nat.reduceAdd, h24, h32, not_false_eq_true, and_self,
      if_true, free, Function.update_same, Function.update_idem]
    exact ⟨_, _, rfl, rfl, fun hn => Option.noConfusion hn, fun _ _ => ⟨rfl, rfl⟩⟩

/-- C10 (witness): a 1x1 file of depth 16. -/
theorem rtga_rejects_depth_witness :
    ∃ (img1 : texture_image) (h1 : Heap),
      rtga_image_load_shift tga_1x1_16 img_empty 24 16 8 0 heap_ok =
        some (false, img1, h1) ∧
      img1.pixels = none ∧
      (heap_ok.oracle heap_ok.requests.length = none →
        h1.cells = heap_ok.cells ∧ h1.released = heap_ok.released) ∧
      (∀ init, heap_ok.oracle heap_ok.requests.length = some init →
        h1.cells = Function.update heap_ok.cells heap_ok.next none ∧
        h1.released = heap_ok.next :: heap_ok.released) :=
  rtga_rejects_depth tga_1x1_16 img_empty 24 16 8 0 heap_ok (by decide) (by decide) (by decide)

/-! ### The PNG repacker and the dispatcher -/

theorem repack_range_length (g : Nat → Nat) (count : Nat) :
    ∀ (i : Nat) (blk : List Nat), (repack_range g count i blk).length = blk.length := by
  induction count with
  | zero => intro i blk; rfl
  | succ n ih =>
    intro i blk
    simp only [repack_range]
    rw [ih, List.length_set]

/-- The repacking loop over indices inside the block does not fault and
rewrites the block in place. -/
theorem for_loop_repack (p sa sr sg sb : Nat) (count : Nat) :
    ∀ (i : Nat) (h : Heap) (blk : List Nat), h.cells p = some blk →
      i + count ≤ blk.length →
      for_loop (rpng_repack_pixel p sa sr sg sb) count i h =
        some (h.put p (repack_range (rpng_repack_word sa sr sg sb) count i blk)) := by
  induction count with
  | zero =>
    intro i h blk hb _
    simp [for_loop, repack_range, Heap.put_self h p blk hb]
  | succ n ih =>
    intro i h blk hb hle
    have hi : i < blk.length := by omega
    have hstep : rpng_repack_pixel p sa sr sg sb i h =
        some (h.put p (blk.set i (rpng_repack_word sa sr sg sb (blk.getD i 0)))) := by
      have hget : blk[i]? = some (blk.getD i 0) := by
        rw [List.getElem?_eq_getElem hi, List.getD_eq_getElem _ _ hi]
      simp only [rpng_repack_pixel, load32, hb, hget]
      rw [store32_eq h p i _ blk hb, if_pos hi]
      rfl
    simp only [for_loop, hstep]
    rw [ih (i + 1) _ (blk.set i (rpng_repack_word sa sr sg sb (blk.getD i 0)))
      (Heap.put_cells _ _ _) (by rw [List.length_set]; omega), Heap.put_put]
    rfl

/-- On a path that contains ".tga" the dispatcher never returns true: line 537
returns the outer `ret`, which the `.tga` branch leaves false. -/
theorem texture_image_load_tga_false (env : Env) (out_img : texture_image) (path : String)
    (h : Heap) (r : Bool × texture_image × Heap) (htga : strstr path ".tga" = true)
    (hr : texture_image_load env out_img path h = some r) : r.1 = false := by
  unfold texture_image_load at hr
  simp only [htga, if_true] at hr
  split at hr
  · cases hr; rfl
  · split at hr
    · exact Option.noConfusion hr
    · split at hr
      · exact Option.noConfusion hr
      · cases hr; rfl

/-- C1 (failing input): on "a.tga" holding a well-formed 2x1 file of depth 24,
read successfully, with an allocator that succeeds, the decoder itself returns
true, and the dispatcher hands back the populated descriptor (2x1, both words
decoded) but returns false. -/
theorem texture_image_load_tga_reports_failure :
    strstr "a.tga" ".tga" = true ∧
      (rtga_image_load_shift tga_2x1_24 img_empty 24 16 8 0 heap_ok).map (fun r => r.1) =
        some true ∧
      (texture_image_load env_tga img_empty "a.tga" heap_ok).map
        (fun r => (r.1, r.2.1.width, r.2.1.height, r.2.1.pixels, r.2.2.cells 0)) =
        some (false, 2, 1, some 0, some [0xFF030201, 0xFF060504]) :=
  ⟨by decide, by decide, rfl⟩

/-- C2 (failing input): called on the unpopulated descriptor with "b.tga" holding
a well-formed 1x2 file of depth 32, the dispatcher returns false and the
descriptor's `pixels` field is the non-null address of a live block. -/
theorem texture_image_load_false_keeps_buffer :
    (img_empty.pixels = none ∧ img_empty.width = 0 ∧ img_empty.height = 0) ∧
      (texture_image_load env_tga_rgba img_empty "b.tga" heap_ok).map
        (fun r => (r.1, r.2.1.pixels, r.2.2.cells 0, r.2.2.released)) =
        some (false, some 0, some [0x04010203, 0x08050607], []) :=
  ⟨⟨rfl, rfl, rfl⟩, rfl⟩

/-- C3 (counterexample): the extension of "a.png.bmp" and of "a.tga.bmp" is
".bmp", yet on "a.png.bmp" the dispatcher calls the PNG decoder and returns
true with its 1x1 image, and on "a.tga.bmp" it calls the TGA decoder, which
allocates and fills the descriptor. -/
theorem texture_image_load_matches_substring :
    (texture_image_load (env_png false) img_empty "a.png.bmp" heap_ok).map
        (fun r => (r.1, r.2.1.width, r.2.1.height, r.2.1.pixels)) =
        some (true, 1, 1, some 0) ∧
      (texture_image_load env_tga img_empty "a.tga.bmp" heap_ok).map
        (fun r => (r.2.1.width, r.2.1.height, r.2.1.pixels, r.2.2.requests)) =
        some (2, 1, some 0, [8]) :=
  ⟨rfl, rfl⟩

/-- C3 (amended): on a path that contains neither ".tga" nor ".png" the
dispatcher returns false whatever the file reader and the PNG decoder would
return, and calls neither decoder: the descriptor and the heap come back
unchanged. -/
theorem texture_image_load_unsupported (env : Env) (out_img : texture_image)
    (path : String) (h : Heap)
    (htga : strstr path ".tga" = false) (hpng : strstr path ".png" = false) :
    texture_image_load env out_img path h = some (false, out_img, h) := by
  simp [texture_image_load, htga, hpng]

/-- C3 (witness): the path "a.bmp", with collaborators that would succeed. -/
theorem texture_image_load_unsupported_witness :
    texture_image_load (env_png true) ⟨7, 5, some 3⟩ "a.bmp" heap_png =
      some (false, ⟨7, 5, some 3⟩, heap_png) :=
  texture_image_load_unsupported (env_png true) ⟨7, 5, some 3⟩ "a.bmp" heap_png
    (by decide) (by decide)

/-- C12: with the native shifts a = 24, r = 16, g = 8, b = 0 the repacker hands
back exactly what the external decoder returned, whether it succeeded or not:
the same flag, the same descriptor (pixel pointer, width, height) and the same
heap, so no word of the pixel buffer is touched. -/
theorem rpng_native_shift_identity (env : Env) (path : String) (out_img : texture_image)
    (h : Heap) :
    rpng_image_load_argb_shift env path out_img 24 16 8 0 h =
      some (env.rpng_load_image_argb path out_img h) := by
  unfold rpng_image_load_argb_shift
  rcases hd : env.rpng_load_image_argb path out_img h with ⟨ret, d, h1⟩
  cases ret <;> simp

theorem repack_range_get (g : Nat → Nat) (count : Nat) :
    ∀ (i : Nat) (blk : List Nat) (j : Nat), i + count ≤ blk.length →
      (repack_range g count i blk)[j]? =
        if i ≤ j ∧ j < i + count then (blk[j]?).map g else blk[j]? := by
  induction count with
  | zero =>
    intro i blk j _
    have hn : ¬ (i ≤ j ∧ j < i + 0) := by omega
    rw [if_neg hn]
    rfl
  | succ n ih =>
    intro i blk j hle
    simp only [repack_range]
    rw [ih (i + 1) _ j (by rw [List.length_set]; omega)]
    have hi : i < blk.length := by omega
    by_cases hj : i = j
    · subst hj
      have h1 : ¬ (i + 1 ≤ i ∧ i < i + 1 + n) := by omega
      have h2 : i ≤ i ∧ i < i + (n + 1) := by omega
      simp [h1, h2, hi, List.getD_eq_getElem _ _ hi]
    · by_cases hr : i + 1 ≤ j ∧ j < i + 1 + n
      · have h2 : i ≤ j ∧ j < i + (n + 1) := by omega
        simp only [hr, h2, if_true]
        rw [List.getElem?_set_ne hj]
      · have h2 : ¬ (i ≤ j ∧ j < i + (n + 1)) := by omega
        simp only [hr, h2, if_false]
        rw [List.getElem?_set_ne hj]

/-- The repacked word written with the plain shift-and-or formula. -/
theorem rpng_repack_word_eq (sa sr sg sb col : Nat) :
    rpng_repack_word sa sr sg sb col =
      ((((col >>> 24) &&& 0xFF) <<< sa) ||| (((col >>> 16) &&& 0xFF) <<< sr) |||
        (((col >>> 8) &&& 0xFF) <<< sg) ||| ((col &&& 0xFF) <<< sb)) % 2 ^ 32 := by
  have h255 : ∀ x : Nat, x &&& 0xFF = x % 256 := fun x => Nat.and_pow_two_sub_one_eq_mod x 8
  rw [rpng_repack_word, pack_shift_eq_mod, h255, h255, h255, h255, Nat.shiftRight_zero]

/-- C13 (failing input): the decoder returns a 65536x65536 image in a live
block of `65536 * 65536` words, every one `0xFF112233`; the `uint32_t` product
`num_pixels` of line 192 wraps to 0, the loop does not run, and with the
R/B-swapped shifts pixel 0 is still `0xFF112233` instead of `0xFF332211`. -/
theorem rpng_num_pixels_wraps :
    (∃ blk, (env_png_huge.rpng_load_image_argb "a.png" img_empty heap_ok).2.2.cells 0 =
        some blk ∧ blk.length = 65536 * 65536 ∧ blk[0]? = some 0xFF112233) ∧
      rpng_repack_word 24 0 8 16 0xFF112233 = 0xFF332211 ∧
      (rpng_image_load_argb_shift env_png_huge "a.png" img_empty 24 0 8 16 heap_ok).map
        (fun r => (r.1, r.2.1.width, r.2.1.height)) = some (true, 65536, 65536) ∧
      (rpng_image_load_argb_shift env_png_huge "a.png" img_empty 24 0 8 16 heap_ok).map
        (fun r => (r.2.2.cells 0).map fun b => b[0]?) = some (some (some 0xFF112233)) := by
  have hrun : rpng_image_load_argb_shift env_png_huge "a.png" img_empty 24 0 8 16 heap_ok =
      some (true, ⟨65536, 65536, some 0⟩, heap_huge) := rfl
  have hcell : heap_huge.cells 0 = some (List.replicate (2 ^ 32) 0xFF112233) := by
    simp only [heap_huge, Function.update_same]
  have hget : (List.replicate (2 ^ 32) 0xFF112233)[0]? = some 0xFF112233 := by
    rw [List.getElem?_replicate, if_pos (by decide)]
  refine ⟨⟨List.replicate (2 ^ 32) 0xFF112233, hcell, ?_, hget⟩, by decide, ?_, ?_⟩
  · rw [List.length_replicate]
    decide
  · rw [hrun]
    rfl
  · rw [hrun]
    simp only [Option.map_some', hcell, hget]

/-- Repacking below `2 ^ 32` pixels: when the requested shifts differ from the
native ones and the decoder succeeds with a live block of `width * height`
words, the repacker returns true with the decoder's descriptor and
replaces every word `x` of the block, and no other word of the heap, by
`(A << a_shift) | (R << r_shift) | (G << g_shift) | (B << b_shift)` in 32 bits,
where `A = (x >> 24) & 0xFF`, `R = (x >> 16) & 0xFF`, `G = (x >> 8) & 0xFF`,
`B = x & 0xFF`; with a = 24, r = 0, g = 8, b = 16 the word `0xFF112233` becomes
`0xFF332211`. -/
theorem rpng_repack_all (env : Env) (path : String) (out_img : texture_image)
    (a_shift r_shift g_shift b_shift : Nat) (h : Heap) (d : texture_image) (h1 : Heap)
    (p : Nat) (blk : List Nat)
    (hshift : a_shift ≠ 24 ∨ r_shift ≠ 16 ∨ g_shift ≠ 8 ∨ b_shift ≠ 0)
    (hdec : env.rpng_load_image_argb path out_img h = (true, d, h1))
    (hp : d.pixels = some p) (hcell : h1.cells p = some blk)
    (hlen : blk.length = d.width * d.height)
    (hfit : d.width * d.height < 2 ^ 32) :
    ∃ (h2 : Heap) (blk2 : List Nat),
      rpng_image_load_argb_shift env path out_img a_shift r_shift g_shift b_shift h =
        some (true, d, h2) ∧
      h2.cells p = some blk2 ∧ blk2.length = d.width * d.height ∧
      (∀ i, i < d.width * d.height →
        ∃ x, blk[i]? = some x ∧
          blk2[i]? = some
            (((((x >>> 24) &&& 0xFF) <<< a_shift) ||| (((x >>> 16) &&& 0xFF) <<< r_shift) |||
              (((x >>> 8) &&& 0xFF) <<< g_shift) ||| ((x &&& 0xFF) <<< b_shift)) % 2 ^ 32)) ∧
      (∀ q, q ≠ p → h2.cells q = h1.cells q) ∧
      ((((0xFF112233 >>> 24) &&& 0xFF) <<< 24) ||| (((0xFF112233 >>> 16) &&& 0xFF) <<< 0) |||
        (((0xFF112233 >>> 8) &&& 0xFF) <<< 8) ||| ((0xFF112233 &&& 0xFF) <<< 16)) % 2 ^ 32 =
          0xFF332211 := by
  have hle : 0 + u32 (d.width * d.height) ≤ blk.length := by
    rw [hlen, Nat.zero_add]
    exact Nat.mod_le _ _
  refine ⟨h1.put p (repack_range (rpng_repack_word a_shift r_shift g_shift b_shift)
    (u32 (d.width * d.height)) 0 blk), _, ?_, Heap.put_cells _ _ _, ?_, ?_, ?_, by decide⟩
  · unfold rpng_image_load_argb_shift
    simp only [hdec, Bool.not_true, Bool.false_eq_true, if_false, hp]
    rw [if_pos (by simpa using hshift),
      for_loop_repack p _ _ _ _ _ 0 h1 blk hcell hle]
  · rw [repack_range_length, hlen]
  · intro i hi
    have hib : i < blk.length := by omega
    refine ⟨blk[i], List.getElem?_eq_getElem hib, ?_⟩
    rw [repack_range_get _ _ _ _ _ hle, u32_of_lt hfit, if_pos (by omega),
      List.getElem?_eq_getElem hib, Option.map_some', rpng_repack_word_eq]
  · intro q hq
    simp [Heap.put, Function.update_noteq hq]

/-- The 1x1 image `0xFF112233` repacked with R and B swapped. -/
theorem rpng_repack_all_witness :
    ∃ (h2 : Heap) (blk2 : List Nat),
      rpng_image_load_argb_shift (env_png true) "a.png" img_empty 24 0 8 16 heap_ok =
        some (true, ⟨1, 1, some 0⟩, h2) ∧
      h2.cells 0 = some blk2 ∧ blk2.length = 1 * 1 ∧
      (∀ i, i < 1 * 1 →
        ∃ x, [0xFF112233][i]? = some x ∧
          blk2[i]? = some
            (((((x >>> 24) &&& 0xFF) <<< 24) ||| (((x >>> 16) &&& 0xFF) <<< 0) |||
              (((x >>> 8) &&& 0xFF) <<< 8) ||| ((x &&& 0xFF) <<< 16)) % 2 ^ 32)) ∧
      (∀ q, q ≠ 0 → h2.cells q = heap_png.cells q) ∧
      ((((0xFF112233 >>> 24) &&& 0xFF) <<< 24) ||| (((0xFF112233 >>> 16) &&& 0xFF) <<< 0) |||
        (((0xFF112233 >>> 8) &&& 0xFF) <<< 8) ||| ((0xFF112233 &&& 0xFF) <<< 16)) % 2 ^ 32 =
          0xFF332211 :=
  rpng_repack_all (env_png true) "a.png" img_empty 24 0 8 16 heap_ok ⟨1, 1, some 0⟩ heap_png
    0 [0xFF112233] (by decide) rfl rfl rfl rfl (by decide)

/-! ### Claims on release, on allocation failure of the conversion, and on the
offsets the TGA decoder reads -/

/-- C16: when the allocation of the staging buffer fails, the conversion
returns false with the descriptor as it was on entry (so with its width, height
and pixel pointer), and no block of the heap has changed: every element of the
pixel buffer is what it was. -/
theorem rpng_gx_convert_alloc_failure (image : texture_image) (h : Heap)
    (hoom : h.oracle h.requests.length = none) :
    ∃ h1 : Heap, rpng_gx_convert_texture32 image h = some (false, image, h1) ∧
      h1.cells = h.cells ∧ h1.released = h.released := by
  unfold rpng_gx_convert_texture32
  simp only [malloc_none h _ hoom]
  exact ⟨_, rfl, rfl, rfl⟩

/-- C16 (witness): the 6x6 image with an allocator that returns `NULL`. -/
theorem rpng_gx_convert_alloc_failure_witness :
    ∃ h1 : Heap, rpng_gx_convert_texture32 ⟨6, 6, some 0⟩ heap_6x6_oom =
        some (false, ⟨6, 6, some 0⟩, h1) ∧
      h1.cells = heap_6x6_oom.cells ∧ h1.released = heap_6x6_oom.released :=
  rpng_gx_convert_alloc_failure ⟨6, 6, some 0⟩ heap_6x6_oom rfl

/-- C17: `texture_image_free` on a null descriptor pointer does nothing.  On a
descriptor whose `pixels` field is null it frees nothing (the heap, log of
`free` calls included, is unchanged) and leaves all fields zero.  On a
descriptor whose `pixels` field points to its live block it passes exactly that
block to `free`, leaves all fields zero, and a second call on the descriptor
frees nothing and leaves it all-zero. -/
theorem texture_image_free_spec (h : Heap) (w ht p : Nat) (blk : List Nat)
    (hlive : h.cells p = some blk) :
    texture_image_free none h = some (none, h) ∧
    texture_image_free (some ⟨w, ht, none⟩) h = some (some ⟨0, 0, none⟩, h) ∧
    ∃ h1 : Heap,
      texture_image_free (some ⟨w, ht, some p⟩) h = some (some ⟨0, 0, none⟩, h1) ∧
      h1.released = p :: h.released ∧ h1.cells p = none ∧
      (∀ q, q ≠ p → h1.cells q = h.cells q) ∧
      texture_image_free (some ⟨0, 0, none⟩) h1 = some (some ⟨0, 0, none⟩, h1) := by
  refine ⟨rfl, rfl, ?_⟩
  refine ⟨{ h with cells := Function.update h.cells p none, released := p :: h.released },
    ?_, rfl, ?_, ?_, rfl⟩
  · simp [texture_image_free, free, hlive]
  · simp
  · intro q hq
    simp [Function.update_noteq hq]

/-- C17 (witness): the 1x1 image left by the PNG decoder. -/
theorem texture_image_free_spec_witness :
    texture_image_free none heap_png = some (none, heap_png) ∧
    texture_image_free (some ⟨1, 1, none⟩) heap_png = some (some ⟨0, 0, none⟩, heap_png) ∧
    ∃ h1 : Heap,
      texture_image_free (some ⟨1, 1, some 0⟩) heap_png = some (some ⟨0, 0, none⟩, h1) ∧
      h1.released = 0 :: heap_png.released ∧ h1.cells 0 = none ∧
      (∀ q, q ≠ 0 → h1.cells q = heap_png.cells q) ∧
      texture_image_free (some ⟨0, 0, none⟩) h1 = some (some ⟨0, 0, none⟩, h1) :=
  texture_image_free_spec heap_png 1 1 0 [0xFF112233] rfl

/-- On a buffer of depth 24 holding at least one pixel the decoder reads the
byte at offset `18 + 3 * width * height`, the first one after the pixel data. -/
theorem rtga_reads_past_pixels (buf : Bytes) (h : Heap) (init : Nat → Nat)
    (htype : (buf 2).val = 2) (hbits : (buf 16).val = 24)
    (halloc : h.oracle h.requests.length = some init)
    (hpos : 1 ≤ ((buf 12).val + 256 * (buf 13).val) * ((buf 14).val + 256 * (buf 15).val))
    (hsize : 4 * (((buf 12).val + 256 * (buf 13).val) *
      ((buf 14).val + 256 * (buf 15).val)) < 2 ^ 32) :
    18 + 3 * (((buf 12).val + 256 * (buf 13).val) * ((buf 14).val + 256 * (buf 15).val)) ∈
      rtga_read_offsets buf h := by
  have hwh := u32_of_lt (dim_mul_lt (le16_le (buf 12) (buf 13)) (le16_le (buf 14) (buf 15)))
  unfold rtga_read_offsets
  simp only [htype, ne_eq, not_true_eq_false, if_false, Nat.add_zero, le16_eq, hwh,
    malloc_some h _ init halloc, Nat.reduceAdd, hbits]
  apply List.mem_cons_of_mem
  apply List.mem_append_right
  simp only [Nat.reduceEqDiff, not_false_eq_true, not_true_eq_false, and_false, if_false,
    List.mem_flatMap, List.mem_range]
  refine ⟨((buf 12).val + 256 * (buf 13).val) * ((buf 14).val + 256 * (buf 15).val) - 1,
    by omega, ?_⟩
  have h0 : u32 ((((buf 12).val + 256 * (buf 13).val) * ((buf 14).val + 256 * (buf 15).val)
      - 1) * 3) = (((buf 12).val + 256 * (buf 13).val) * ((buf 14).val + 256 * (buf 15).val)
      - 1) * 3 := u32_of_lt (by omega)
  have h3 : u32 ((((buf 12).val + 256 * (buf 13).val) * ((buf 14).val + 256 * (buf 15).val)
      - 1) * 3 + 3) = (((buf 12).val + 256 * (buf 13).val) * ((buf 14).val + 256 * (buf 15).val)
      - 1) * 3 + 3 := u32_of_lt (by omega)
  simp only [rtga_pixel_reads, h0, h3, List.mem_cons]
  right; right; right; left
  omega

/-- C20 (failing input): the 1x1 file of depth 24 has exactly
`18 + 3 * 1 * 1 = 21` bytes, the decoder returns true on it, and the offsets it
reads include 21, which is not below the length of the buffer. -/
theorem rtga_reads_one_past_end :
    tga_1x1_24.length = 18 + 3 * 1 * 1 ∧
      (rtga_image_load_shift (bytes_of tga_1x1_24) img_empty 24 16 8 0 heap_ok).map
        (fun r => (r.1, r.2.1.width, r.2.1.height)) = some (true, 1, 1) ∧
      rtga_read_offsets (bytes_of tga_1x1_24) heap_ok =
        [2, 12, 13, 14, 15, 16, 17, 18, 19, 20, 21] ∧
      ¬ (∀ k ∈ rtga_read_offsets (bytes_of tga_1x1_24) heap_ok, k < tga_1x1_24.length) := by
  have hreads : rtga_read_offsets (bytes_of tga_1x1_24) heap_ok =
      [2, 12, 13, 14, 15, 16, 17, 18, 19, 20, 21] := by decide
  refine ⟨by decide, by decide, hreads, ?_⟩
  rw [hreads]
  decide

/-! ### The loops of the tiled conversion -/

theorem replay_length (tmp : List Nat) (cs : List (Nat × Nat)) (pix : List Nat) :
    (replay tmp cs pix).length = pix.length := by
  induction cs with
  | nil => rfl
  | cons c cs ih => simp [replay, ih]

theorem replay_append (tmp : List Nat) (xs ys : List (Nat × Nat)) (pix : List Nat) :
    replay tmp (xs ++ ys) pix = replay tmp xs (replay tmp ys pix) := by
  induction xs with
  | nil => rfl
  | cons c cs ih => simp [replay, ih]

theorem gx_copy16_eq (tmp : List Nat) (a b : Nat) (s : gx_state)
    (hb : b < tmp.length) (ha : a < s.pix.length) :
    gx_copy16 tmp a b s =
      some { s with pix := s.pix.set a (tmp.getD b 0), copies := (a, b) :: s.copies } := by
  simp [gx_copy16, List.getElem?_eq_getElem hb, ha, List.getD_eq_getElem _ _ hb]

/-- One run of the macro body inside both buffers carries out its eight
assignments and advances the two local pointers. -/
theorem gx_blit_tile_eq (tmp : List Nat) (off : Nat) (s : gx_state)
    (hoff : off ≤ 12) (hs : s.tmp_src + 8 ≤ tmp.length)
    (hd : s.tmp_dst + 32 ≤ s.pix.length) :
    gx_blit_tile tmp off s =
      some { s with
        tmp_src := s.tmp_src + 8, tmp_dst := s.tmp_dst + 32,
        pix := replay tmp (tile_copies s.tmp_src s.tmp_dst off) s.pix,
        copies := tile_copies s.tmp_src s.tmp_dst off ++ s.copies } := by
  unfold gx_blit_tile
  rw [gx_copy16_eq tmp _ _ s (by omega) (by omega)]
  simp only [Option.bind_eq_bind, Option.some_bind]
  rw [gx_copy16_eq tmp _ _ _ (by omega) (by simp only [List.length_set]; omega)]
  simp only [Option.some_bind]
  rw [gx_copy16_eq tmp _ _ _ (by omega) (by simp only [List.length_set]; omega)]
  simp only [Option.some_bind]
  rw [gx_copy16_eq tmp _ _ _ (by omega) (by simp only [List.length_set]; omega)]
  simp only [Option.some_bind]
  rw [gx_copy16_eq tmp _ _ _ (by omega) (by simp only [List.length_set]; omega)]
  simp only [Option.some_bind]
  rw [gx_copy16_eq tmp _ _ _ (by omega) (by simp only [List.length_set]; omega)]
  simp only [Option.some_bind]
  rw [gx_copy16_eq tmp _ _ _ (by omega) (by simp only [List.length_set]; omega)]
  simp only [Option.some_bind]
  rw [gx_copy16_eq tmp _ _ _ (by omega) (by simp only [List.length_set]; omega)]
  rfl

/-- The loop of the macro over `n` tiles inside both buffers. -/
theorem gx_tiles_eq (tmp : List Nat) (off : Nat) (hoff : off ≤ 12) (n : Nat) :
    ∀ (i : Nat) (s : gx_state), s.tmp_src + 8 * n ≤ tmp.length →
      s.tmp_dst + 32 * n ≤ s.pix.length →
      for_loop (fun _x st => gx_blit_tile tmp off st) n i s =
        some { s with
          tmp_src := s.tmp_src + 8 * n, tmp_dst := s.tmp_dst + 32 * n,
          pix := replay tmp (line_copies off n s.tmp_src s.tmp_dst) s.pix,
          copies := line_copies off n s.tmp_src s.tmp_dst ++ s.copies } := by
  induction n with
  | zero =>
    intro i s _ _
    rfl
  | succ n ih =>
    intro i s hs hd
    simp only [for_loop]
    rw [gx_blit_tile_eq tmp off s hoff (by omega) (by omega)]
    simp only
    rw [ih (i + 1) _ (by simp only; omega) (by simp only [replay_length]; omega)]
    simp only [line_copies, replay_append, List.append_assoc]
    congr 2 <;> omega

/-- One use of the macro `GX_BLIT_LINE_32(off)` inside both buffers. -/
theorem GX_BLIT_LINE_32_eq (tmp : List Nat) (width2 tmp_pitch off : Nat) (s : gx_state)
    (hoff : off ≤ 12) (hs : s.src + 8 * (width2 >>> 3) ≤ tmp.length)
    (hd : s.dst + 32 * (width2 >>> 3) ≤ s.pix.length) :
    GX_BLIT_LINE_32 tmp width2 tmp_pitch off s =
      some { s with
        src := s.src + tmp_pitch,
        tmp_src := s.src + 8 * (width2 >>> 3), tmp_dst := s.dst + 32 * (width2 >>> 3),
        pix := replay tmp (line_copies off (width2 >>> 3) s.src s.dst) s.pix,
        copies := line_copies off (width2 >>> 3) s.src s.dst ++ s.copies } := by
  unfold GX_BLIT_LINE_32
  simp only
  rw [gx_tiles_eq tmp off hoff (width2 >>> 3) 0 _ (by simpa using hs) (by simpa using hd)]

/-- One band of four lines inside both buffers. -/
theorem gx_blit_band_eq (tmp : List Nat) (width2 tmp_pitch : Nat) (s : gx_state)
    (hs : s.src + tmp_pitch + tmp_pitch + tmp_pitch + 8 * (width2 >>> 3) ≤ tmp.length)
    (hd : s.dst + 32 * (width2 >>> 3) ≤ s.pix.length) :
    ∃ s1 : gx_state, gx_blit_band tmp width2 tmp_pitch s = some s1 ∧
      s1.src = s.src + tmp_pitch + tmp_pitch + tmp_pitch + tmp_pitch ∧
      s1.dst = s.dst + u32 (4 * width2) ∧
      s1.pix = replay tmp (band_copies (width2 >>> 3) tmp_pitch s.src s.dst) s.pix ∧
      s1.copies = band_copies (width2 >>> 3) tmp_pitch s.src s.dst ++ s.copies := by
  unfold gx_blit_band
  rw [GX_BLIT_LINE_32_eq tmp width2 tmp_pitch 0 s (by omega) (by omega) hd]
  simp only [Option.bind_eq_bind, Option.some_bind]
  rw [GX_BLIT_LINE_32_eq tmp width2 tmp_pitch 4 _ (by omega) (by simp only; omega)
    (by simp only [replay_length]; omega)]
  simp only [Option.some_bind]
  rw [GX_BLIT_LINE_32_eq tmp width2 tmp_pitch 8 _ (by omega) (by simp only; omega)
    (by simp only [replay_length]; omega)]
  simp only [Option.some_bind]
  rw [GX_BLIT_LINE_32_eq tmp width2 tmp_pitch 12 _ (by omega) (by simp only; omega)
    (by simp only [replay_length]; omega)]
  simp only [Option.some_bind]
  refine ⟨_, rfl, rfl, rfl, ?_, ?_⟩
  · simp only [band_copies, replay_append]
  · simp only [band_copies, List.append_assoc]

/-- The loop over `nb` bands inside both buffers. -/
theorem gx_bands_eq (tmp : List Nat) (width2 tmp_pitch : Nat)
    (hpitch : 8 * (width2 >>> 3) ≤ tmp_pitch)
    (hstep : 32 * (width2 >>> 3) ≤ u32 (4 * width2)) (nb : Nat) :
    ∀ (i : Nat) (s : gx_state),
      s.src + nb * (tmp_pitch + tmp_pitch + tmp_pitch + tmp_pitch) ≤ tmp.length →
      s.dst + nb * u32 (4 * width2) ≤ s.pix.length →
      ∃ s1 : gx_state,
        for_loop (fun _i st => gx_blit_band tmp width2 tmp_pitch st) nb i s = some s1 ∧
        s1.pix = replay tmp
          (all_copies (width2 >>> 3) tmp_pitch (u32 (4 * width2)) nb s.src s.dst) s.pix ∧
        s1.copies =
          all_copies (width2 >>> 3) tmp_pitch (u32 (4 * width2)) nb s.src s.dst ++ s.copies := by
  induction nb with
  | zero =>
    intro i s _ _
    exact ⟨s, rfl, rfl, rfl⟩
  | succ nb ih =>
    intro i s hs hd
    rw [Nat.succ_mul] at hs hd
    obtain ⟨s1, hrun, hsrc, hdst, hpix, hcop⟩ :=
      gx_blit_band_eq tmp width2 tmp_pitch s (by omega) (by omega)
    obtain ⟨s2, hrun2, hpix2, hcop2⟩ := ih (i + 1) s1 (by rw [hsrc]; omega)
      (by rw [hdst, hpix, replay_length]; omega)
    refine ⟨s2, ?_, ?_, ?_⟩
    · simp only [for_loop, hrun, hrun2]
    · rw [hpix2, hpix, hsrc, hdst]
      simp only [all_copies, replay_append]
    · rw [hcop2, hcop, hsrc, hdst]
      simp only [all_copies, List.append_assoc]

/-! ### The log of assignments -/

theorem tile_copies_mem (ts td off cm k a b : Nat) (hcm : cm < 4) (hk : k < 2)
    (ha : a = td + off + cm + 16 * k) (hb : b = ts + 2 * cm + k) :
    (a, b) ∈ tile_copies ts td off := by
  subst ha hb
  have h4 : cm = 0 ∨ cm = 1 ∨ cm = 2 ∨ cm = 3 := by omega
  have h2 : k = 0 ∨ k = 1 := by omega
  simp only [tile_copies, List.mem_cons, Prod.mk.injEq, List.mem_singleton]
  rcases h4 with rfl | rfl | rfl | rfl <;> rcases h2 with rfl | rfl <;> omega

theorem tile_copies_bound (ts td off : Nat) (hoff : off ≤ 12) (c : Nat × Nat)
    (hc : c ∈ tile_copies ts td off) : c.1 < td + 32 ∧ c.2 < ts + 8 := by
  simp only [tile_copies, List.mem_cons, List.mem_singleton, List.not_mem_nil, or_false] at hc
  rcases hc with rfl | rfl | rfl | rfl | rfl | rfl | rfl | rfl <;> simp only <;> omega

theorem line_copies_length (off n : Nat) :
    ∀ ts td, (line_copies off n ts td).length = 8 * n := by
  induction n with
  | zero => intro ts td; rfl
  | succ n ih =>
    intro ts td
    simp only [line_copies, List.length_append, ih, tile_copies, List.length_cons,
      List.length_nil]
    omega

theorem line_copies_mem (off n : Nat) :
    ∀ (ts td x cm k a b : Nat), x < n → cm < 4 → k < 2 →
      a = td + 32 * x + off + cm + 16 * k → b = ts + 8 * x + 2 * cm + k →
      (a, b) ∈ line_copies off n ts td := by
  induction n with
  | zero => intro ts td x cm k a b hx; omega
  | succ n ih =>
    intro ts td x cm k a b hx hcm hk ha hb
    simp only [line_copies, List.mem_append]
    cases x with
    | zero => exact Or.inr (tile_copies_mem ts td off cm k a b hcm hk (by omega) (by omega))
    | succ x =>
      exact Or.inl (ih (ts + 8) (td + 32) x cm k a b (by omega) hcm hk (by omega) (by omega))

theorem line_copies_bound (off n : Nat) (hoff : off ≤ 12) :
    ∀ (ts td : Nat) (c : Nat × Nat), c ∈ line_copies off n ts td →
      c.1 < td + 32 * n ∧ c.2 < ts + 8 * n := by
  induction n with
  | zero => intro ts td c hc; simp [line_copies] at hc
  | succ n ih =>
    intro ts td c hc
    simp only [line_copies, List.mem_append] at hc
    rcases hc with hc | hc
    · have := ih (ts + 8) (td + 32) c hc
      omega
    · have := tile_copies_bound ts td off hoff c hc
      omega

theorem band_copies_length (n pitch ts td : Nat) :
    (band_copies n pitch ts td).length = 32 * n := by
  simp only [band_copies, List.length_append, line_copies_length]
  omega

theorem band_copies_mem (n pitch ts td r x cm k a b : Nat) (hr : r < 4) (hx : x < n)
    (hcm : cm < 4) (hk : k < 2)
    (ha : a = td + 32 * x + 4 * r + cm + 16 * k)
    (hb : b = ts + r * pitch + 8 * x + 2 * cm + k) :
    (a, b) ∈ band_copies n pitch ts td := by
  have h4 : r = 0 ∨ r = 1 ∨ r = 2 ∨ r = 3 := by omega
  simp only [band_copies, List.mem_append]
  rcases h4 with rfl | rfl | rfl | rfl
  · exact Or.inr (line_copies_mem 0 n ts td x cm k a b hx hcm hk (by omega) (by omega))
  · exact Or.inl (Or.inr (line_copies_mem 4 n _ td x cm k a b hx hcm hk (by omega)
      (by omega)))
  · exact Or.inl (Or.inl (Or.inr (line_copies_mem 8 n _ td x cm k a b hx hcm hk (by omega)
      (by omega))))
  · exact Or.inl (Or.inl (Or.inl (line_copies_mem 12 n _ td x cm k a b hx hcm hk (by omega)
      (by omega))))

theorem band_copies_bound (n pitch ts td : Nat) (c : Nat × Nat)
    (hc : c ∈ band_copies n pitch ts td) :
    c.1 < td + 32 * n ∧ c.2 < ts + pitch + pitch + pitch + 8 * n := by
  simp only [band_copies, List.mem_append] at hc
  rcases hc with ((hc | hc) | hc) | hc
  · have := line_copies_bound 12 n (by omega) _ _ c hc
    omega
  · have := line_copies_bound 8 n (by omega) _ _ c hc
    omega
  · have := line_copies_bound 4 n (by omega) _ _ c hc
    omega
  · have := line_copies_bound 0 n (by omega) _ _ c hc
    omega

theorem all_copies_length (n pitch dstep nb : Nat) :
    ∀ ts td, (all_copies n pitch dstep nb ts td).length = nb * (32 * n) := by
  induction nb with
  | zero => intro ts td; simp [all_copies]
  | succ nb ih =>
    intro ts td
    simp only [all_copies, List.length_append, ih, band_copies_length, Nat.succ_mul]

theorem all_copies_mem (n pitch dstep nb : Nat) :
    ∀ (ts td band r x cm k a b : Nat), band < nb → r < 4 → x < n → cm < 4 → k < 2 →
      a = td + band * dstep + 32 * x + 4 * r + cm + 16 * k →
      b = ts + band * (pitch + pitch + pitch + pitch) + r * pitch + 8 * x + 2 * cm + k →
      (a, b) ∈ all_copies n pitch dstep nb ts td := by
  induction nb with
  | zero => intro ts td band r x cm k a b hb; omega
  | succ nb ih =>
    intro ts td band r x cm k a b hband hr hx hcm hk ha hb
    simp only [all_copies, List.mem_append]
    cases band with
    | zero =>
      exact Or.inr (band_copies_mem n pitch ts td r x cm k a b hr hx hcm hk (by omega)
        (by omega))
    | succ band =>
      refine Or.inl (ih _ _ band r x cm k a b (by omega) hr hx hcm hk ?_ ?_)
      · rw [ha, Nat.succ_mul]; omega
      · rw [hb, Nat.succ_mul]; omega

theorem all_copies_bound (n pitch dstep nb : Nat) (hp : 8 * n ≤ pitch) (hd : 32 * n ≤ dstep) :
    ∀ (ts td : Nat) (c : Nat × Nat), c ∈ all_copies n pitch dstep nb ts td →
      c.1 < td + nb * dstep ∧ c.2 < ts + nb * (pitch + pitch + pitch + pitch) := by
  induction nb with
  | zero => intro ts td c hc; simp [all_copies] at hc
  | succ nb ih =>
    intro ts td c hc
    simp only [all_copies, List.mem_append] at hc
    rw [Nat.succ_mul, Nat.succ_mul]
    rcases hc with hc | hc
    · have := ih _ _ c hc
      omega
    · have := band_copies_bound n pitch ts td c hc
      omega

/-- Clearing the two low bits of an `unsigned` value. -/
theorem and_not_three (w : Nat) (hw : w < 2 ^ 32) : w &&& 0xFFFFFFFC = w - w % 4 := by
  have hmask : (0xFFFFFFFC : Nat) = 2 ^ 2 * (2 ^ 30 - 1) := by decide
  have hw4 : w - w % 4 = 2 ^ 2 * (w / 4) := by omega
  rw [hmask, hw4]
  apply Nat.eq_of_testBit_eq
  intro i
  rw [Nat.testBit_and, Nat.testBit_mul_pow_two, Nat.testBit_mul_pow_two,
    Nat.testBit_two_pow_sub_one]
  by_cases h2 : 2 ≤ i
  · have hdiv : (w / 4).testBit (i - 2) = w.testBit i := by
      have : w / 4 = w >>> 2 := by rw [Nat.shiftRight_eq_div_pow]
      rw [this, Nat.testBit_shiftRight]
      congr 1
      omega
    by_cases h32 : i - 2 < 30
    · simp [h2, h32, hdiv]
    · have hfalse : w.testBit i = false := by
        apply Nat.testBit_lt_two_pow
        calc w < 2 ^ 32 := hw
          _ ≤ 2 ^ i := Nat.pow_le_pow_right (by decide) (by omega)
      simp [h2, h32, hdiv, hfalse]
  · simp [h2]

/-- A logged assignment whose target is written only once determines the
half-word found there afterwards. -/
theorem replay_get_of_mem (tmp : List Nat) (cs : List (Nat × Nat)) (pix : List Nat)
    (a b : Nat) (hnd : (cs.map Prod.fst).Nodup) (hmem : (a, b) ∈ cs) (ha : a < pix.length) :
    (replay tmp cs pix)[a]? = some (tmp.getD b 0) := by
  induction cs with
  | nil => simp at hmem
  | cons c cs ih =>
    simp only [List.map_cons, List.nodup_cons] at hnd
    simp only [replay]
    rcases List.mem_cons.mp hmem with hc | hc
    · subst hc
      simp [replay_length, ha]
    · have hne : c.1 ≠ a := by
        intro heq
        apply hnd.1
        rw [heq]
        exact List.mem_map_of_mem Prod.fst hc
      rw [List.getElem?_set_ne hne]
      exact ih hnd.2 hc

/-- A half-word that is the target of no logged assignment is unchanged. -/
theorem replay_get_of_not_mem (tmp : List Nat) (cs : List (Nat × Nat)) (pix : List Nat)
    (a : Nat) (hmem : a ∉ cs.map Prod.fst) :
    (replay tmp cs pix)[a]? = pix[a]? := by
  induction cs with
  | nil => rfl
  | cons c cs ih =>
    simp only [List.map_cons, List.mem_cons, not_or] at hmem
    simp only [replay]
    rw [List.getElem?_set_ne (Ne.symm hmem.1)]
    exact ih hmem.2

/-- The targets of the assignments of `nb` bands of `n` tiles, laid out from
offset 0 with a band stride of `32 * n`, are the indices below `nb * (32 * n)`,
each one once. -/
theorem all_copies_perm (n pitch nb ts : Nat) :
    (List.range (nb * (32 * n))).Perm
      ((all_copies n pitch (32 * n) nb ts 0).map Prod.fst) := by
  apply List.Subperm.perm_of_length_le
  · apply List.subperm_of_subset (List.nodup_range _)
    intro d hd
    rw [List.mem_range] at hd
    have hn : 0 < 32 * n := by
      rcases Nat.eq_zero_or_pos (32 * n) with h0 | h0
      · rw [h0] at hd; omega
      · exact h0
    have hdm := Nat.div_add_mod d (32 * n)
    have hmod := Nat.mod_lt d hn
    have hband : d / (32 * n) < nb := Nat.div_lt_of_lt_mul (by rw [Nat.mul_comm]; exact hd)
    have hmul : d / (32 * n) * (32 * n) = 32 * n * (d / (32 * n)) := Nat.mul_comm _ _
    have hmem := all_copies_mem n pitch (32 * n) nb ts 0 (d / (32 * n))
      (d % (32 * n) % 16 / 4) (d % (32 * n) / 32) (d % (32 * n) % 4)
      (d % (32 * n) % 32 / 16) d _ hband (by omega) (by omega) (by omega) (by omega)
      (by omega) rfl
    exact List.mem_map_of_mem Prod.fst hmem
  · rw [List.length_map, all_copies_length, List.length_range]

/-- Closed form of the loops of the conversion on a `w` x `h` image whose byte
count fits 32 bits, with both buffers holding `2 * w * h` half-words: the run
does not fault, its log is the one of `h / 4` bands of `w / 4` tiles with row
pitch `2 * w` and band stride `32 * (w / 4)`, and the pixel buffer is the
replay of that log. -/
theorem rpng_gx_blit_eq (tmp pix : List Nat) (w h : Nat) (hw : w < 2 ^ 32) (hh : h < 2 ^ 32)
    (hsize : 4 * (w * h) < 2 ^ 32) (htmp : 2 * (w * h) ≤ tmp.length)
    (hpix : 2 * (w * h) ≤ pix.length) :
    ∃ s : gx_state, rpng_gx_blit tmp pix w h = some s ∧
      s.copies = all_copies (w / 4) (2 * w) (32 * (w / 4)) (h / 4) 0 0 ∧
      s.pix = replay tmp s.copies pix := by
  unfold rpng_gx_blit
  simp only [and_not_three w hw, and_not_three h hh]
  have hcount : (h - h % 4 + 3) / 4 = h / 4 := by omega
  rw [hcount]
  by_cases hz : h / 4 = 0
  · rw [hz]
    exact ⟨_, rfl, rfl, rfl⟩
  · have h4 : 4 ≤ h := by omega
    have hmul : w * 4 ≤ w * h := Nat.mul_le_mul_left w h4
    have hwlt : w < 2 ^ 28 := by omega
    have hpitch : u32 (w * 4) >>> 1 = 2 * w := by
      rw [u32_of_lt (by omega), Nat.shiftRight_eq_div_pow]
      omega
    have hw2 : u32 ((w - w % 4) <<< 1) = 2 * (w - w % 4) := by
      rw [Nat.shiftLeft_eq, u32_of_lt (by omega)]
      omega
    have hn : (2 * (w - w % 4)) >>> 3 = w / 4 := by
      rw [Nat.shiftRight_eq_div_pow]
      omega
    have hstep : u32 (4 * (2 * (w - w % 4))) = 32 * (w / 4) := by
      rw [u32_of_lt (by omega)]
      omega
    have hnb : w * (4 * (h / 4)) ≤ w * h := Nat.mul_le_mul_left w (by omega)
    have hnb2 : w * (4 * (h / 4)) = 4 * (h / 4 * w) := by ring
    have hnn : 4 * (w / 4) * (4 * (h / 4)) ≤ w * h :=
      Nat.mul_le_mul (by omega) (by omega)
    have hnn2 : 4 * (w / 4) * (4 * (h / 4)) = 16 * (h / 4 * (w / 4)) := by ring
    obtain ⟨s1, hrun, hp, hc⟩ := gx_bands_eq tmp (2 * (w - w % 4)) (2 * w)
      (by rw [hn]; omega) (by rw [hn, hstep]) (h / 4) 0
      { src := 0, dst := 0, tmp_src := 0, tmp_dst := 0, pix := pix, copies := [] }
      (by
        simp only
        have : h / 4 * (2 * w + 2 * w + 2 * w + 2 * w) = 8 * (h / 4 * w) := by ring
        omega)
      (by
        simp only
        rw [hstep]
        have : h / 4 * (32 * (w / 4)) = 32 * (h / 4 * (w / 4)) := by ring
        omega)
    rw [hn, hstep] at hp hc
    simp only [List.append_nil] at hc
    refine ⟨s1, ?_, hc, ?_⟩
    · rw [hpitch, hw2]
      exact hrun
    · rw [hp, hc]

/-! ### Words and half-words -/

theorem halves_length (l : List Nat) : (halves l).length = 2 * l.length := by
  induction l with
  | nil => rfl
  | cons w t ih => simp only [halves, List.length_cons, ih]; omega

theorem halves_lt (l : List Nat) : ∀ x ∈ halves l, x < 65536 := by
  induction l with
  | nil => intro x hx; simp [halves] at hx
  | cons w t ih =>
    intro x hx
    simp only [halves, List.mem_cons] at hx
    rcases hx with rfl | rfl | hx
    · exact Nat.mod_lt _ (by decide)
    · exact Nat.mod_lt _ (by decide)
    · exact ih x hx

/-- Half-word `2 * i + k` of a block is the high (`k = 0`) or low (`k = 1`) half
of word `i`. -/
theorem halves_getD (l : List Nat) :
    ∀ (i k : Nat), k < 2 →
      (halves l).getD (2 * i + k) 0 =
        if k = 0 then (l.getD i 0 / 65536) % 65536 else l.getD i 0 % 65536 := by
  induction l with
  | nil => intro i k _; simp [halves]
  | cons w t ih =>
    intro i k hk
    cases i with
    | zero =>
      have h2 : k = 0 ∨ k = 1 := by omega
      rcases h2 with rfl | rfl <;> simp [halves]
    | succ i =>
      have hidx : 2 * (i + 1) + k = (2 * i + k) + 1 + 1 := by omega
      rw [hidx]
      simp only [halves, List.getD_cons_succ]
      exact ih i k hk

theorem words_halves_roundtrip :
    ∀ (n : Nat) (l : List Nat), l.length = 2 * n → (∀ x ∈ l, x < 65536) →
      halves (words l) = l := by
  intro n
  induction n with
  | zero =>
    intro l hl _
    have : l = [] := List.length_eq_zero.mp (by omega)
    subst this
    rfl
  | succ n ih =>
    intro l hl hlt
    match l, hl, hlt with
    | a :: b :: t, hl, hlt =>
      have ha : a < 65536 := hlt a (by simp)
      have hb : b < 65536 := hlt b (by simp)
      have ht := ih t (by simp only [List.length_cons] at hl; omega)
        (fun x hx => hlt x (by simp [hx]))
      simp only [words, halves, ht]
      have h1 : (a * 65536 + b) / 65536 % 65536 = a := by omega
      have h2 : (a * 65536 + b) % 65536 = b := by omega
      rw [h1, h2]
    | [], hl, _ => simp at hl
    | [a], hl, _ => simp only [List.length_singleton] at hl; omega

theorem words_length : ∀ (n : Nat) (l : List Nat), l.length = 2 * n → (words l).length = n := by
  intro n
  induction n with
  | zero =>
    intro l hl
    have : l = [] := List.length_eq_zero.mp (by omega)
    subst this
    rfl
  | succ n ih =>
    intro l hl
    match l, hl with
    | a :: b :: t, hl =>
      simp only [words, List.length_cons]
      rw [ih t (by simp only [List.length_cons] at hl; omega)]
    | [], hl => simp at hl
    | [a], hl => simp only [List.length_singleton] at hl; omega

theorem words_take : ∀ (n : Nat) (l : List Nat), (words l).take n = words (l.take (2 * n)) := by
  intro n
  induction n with
  | zero => intro l; simp [words]
  | succ n ih =>
    intro l
    match l with
    | a :: b :: t =>
      have h2 : 2 * (n + 1) = (2 * n + 1) + 1 := by omega
      rw [h2]
      simp only [words, List.take_succ_cons, ih t]
    | [] => simp [words]
    | [a] =>
      have h2 : 2 * (n + 1) = (2 * n + 1) + 1 := by omega
      rw [h2]
      simp [words]

theorem replay_lt (tmp : List Nat) (htmp : ∀ x ∈ tmp, x < 65536) (cs : List (Nat × Nat))
    (pix : List Nat) (hpix : ∀ x ∈ pix, x < 65536) :
    ∀ x ∈ replay tmp cs pix, x < 65536 := by
  induction cs with
  | nil => exact hpix
  | cons c cs ih =>
    intro x hx
    simp only [replay] at hx
    rcases List.mem_or_eq_of_mem_set hx with hx | rfl
    · exact ih x hx
    · by_cases hb : c.2 < tmp.length
      · rw [List.getD_eq_getElem _ _ hb]
        exact htmp _ (List.getElem_mem hb)
      · rw [List.getD_eq_default _ _ (by omega)]
        decide

/-- The assignment that carries half-word `k` of the source pixel in row `y`,
column `c` is in the log, with the target of the tiled layout. -/
theorem all_copies_mem_pixel (n pitch nb y c k : Nat) (hy : y < 4 * nb) (hc : c < 4 * n)
    (hk : k < 2) :
    (8 * (4 * n) * (y / 4) + 32 * (c / 4) + 16 * k + 4 * (y % 4) + c % 4,
      pitch * y + 2 * c + k) ∈ all_copies n pitch (32 * n) nb 0 0 := by
  apply all_copies_mem n pitch (32 * n) nb 0 0 (y / 4) (y % 4) (c / 4) (c % 4) k _ _
    (by omega) (by omega) (by omega) (by omega) hk
  · have : 8 * (4 * n) * (y / 4) = y / 4 * (32 * n) := by ring
    omega
  · have h1 : pitch * y = pitch * (4 * (y / 4) + y % 4) := by
      congr 1
      omega
    have h2 : pitch * (4 * (y / 4) + y % 4) =
        y / 4 * (pitch + pitch + pitch + pitch) + y % 4 * pitch := by ring
    omega

/-- Every half-word index below `2 * (4 * n) * (4 * nb)` is the target of the
tiled layout for some pixel half-word. -/
theorem tiled_index_cover (n nb d : Nat) (hd : d < 2 * (4 * n) * (4 * nb)) :
    ∃ y c k, y < 4 * nb ∧ c < 4 * n ∧ k < 2 ∧
      8 * (4 * n) * (y / 4) + 32 * (c / 4) + 16 * k + 4 * (y % 4) + c % 4 = d := by
  have hd2 : d < nb * (32 * n) := by
    have : 2 * (4 * n) * (4 * nb) = nb * (32 * n) := by ring
    omega
  have hn : 0 < 32 * n := by
    rcases Nat.eq_zero_or_pos (32 * n) with h0 | h0
    · rw [h0] at hd2; omega
    · exact h0
  have hdm := Nat.div_add_mod d (32 * n)
  have hmod := Nat.mod_lt d hn
  have hband : d / (32 * n) < nb := Nat.div_lt_of_lt_mul (by rw [Nat.mul_comm]; exact hd2)
  refine ⟨4 * (d / (32 * n)) + d % (32 * n) % 16 / 4,
    4 * (d % (32 * n) / 32) + d % (32 * n) % 4, d % (32 * n) % 32 / 16,
    by omega, by omega, by omega, ?_⟩
  have hy4 : (4 * (d / (32 * n)) + d % (32 * n) % 16 / 4) / 4 = d / (32 * n) := by omega
  have hym : (4 * (d / (32 * n)) + d % (32 * n) % 16 / 4) % 4 = d % (32 * n) % 16 / 4 := by
    omega
  have hc4 : (4 * (d % (32 * n) / 32) + d % (32 * n) % 4) / 4 = d % (32 * n) / 32 := by omega
  have hcm : (4 * (d % (32 * n) / 32) + d % (32 * n) % 4) % 4 = d % (32 * n) % 4 := by omega
  rw [hy4, hym, hc4, hcm]
  have : 8 * (4 * n) * (d / (32 * n)) = 32 * n * (d / (32 * n)) := by ring
  omega

/-- The tiled layout sends distinct pixel half-words to distinct indices. -/
theorem tiled_index_inj (n y c k y' c' k' : Nat) (hc : c < 4 * n) (hk : k < 2)
    (hc' : c' < 4 * n) (hk' : k' < 2)
    (heq : 8 * (4 * n) * (y / 4) + 32 * (c / 4) + 16 * k + 4 * (y % 4) + c % 4 =
      8 * (4 * n) * (y' / 4) + 32 * (c' / 4) + 16 * k' + 4 * (y' % 4) + c' % 4) :
    y = y' ∧ c = c' ∧ k = k' := by
  have hn : 0 < 32 * n := by omega
  have e1 : 8 * (4 * n) * (y / 4) = 32 * n * (y / 4) := by ring
  have e2 : 8 * (4 * n) * (y' / 4) = 32 * n * (y' / 4) := by ring
  rw [e1, e2] at heq
  have hq : y / 4 = y' / 4 := by
    have b1 : (32 * (c / 4) + 16 * k + 4 * (y % 4) + c % 4) / (32 * n) = 0 :=
      Nat.div_eq_of_lt (by omega)
    have b2 : (32 * (c' / 4) + 16 * k' + 4 * (y' % 4) + c' % 4) / (32 * n) = 0 :=
      Nat.div_eq_of_lt (by omega)
    have h1 : (32 * n * (y / 4) + (32 * (c / 4) + 16 * k + 4 * (y % 4) + c % 4)) / (32 * n) =
        y / 4 := by
      rw [Nat.mul_add_div hn, b1, Nat.add_zero]
    have h2 : (32 * n * (y' / 4) + (32 * (c' / 4) + 16 * k' + 4 * (y' % 4) + c' % 4)) /
        (32 * n) = y' / 4 := by
      rw [Nat.mul_add_div hn, b2, Nat.add_zero]
    have h3 : 32 * n * (y / 4) + (32 * (c / 4) + 16 * k + 4 * (y % 4) + c % 4) =
        32 * n * (y' / 4) + (32 * (c' / 4) + 16 * k' + 4 * (y' % 4) + c' % 4) := by omega
    rw [← h1, ← h2, h3]
  rw [hq] at heq
  omega

/-- The tiled layout stays below `2 * w' * h'`. -/
theorem tiled_index_lt (n nb y c k : Nat) (hy : y < 4 * nb) (hc : c < 4 * n) (hk : k < 2) :
    8 * (4 * n) * (y / 4) + 32 * (c / 4) + 16 * k + 4 * (y % 4) + c % 4 <
      2 * (4 * n) * (4 * nb) := by
  have e1 : 8 * (4 * n) * (y / 4) = 32 * n * (y / 4) := by ring
  have e2 : 2 * (4 * n) * (4 * nb) = 32 * n * nb := by ring
  have h1 : 32 * n * (y / 4 + 1) ≤ 32 * n * nb := Nat.mul_le_mul_left _ (by omega)
  have h2 : 32 * n * (y / 4 + 1) = 32 * n * (y / 4) + 32 * n := by ring
  omega

/-- Closed form of a successful conversion: on a populated `w` x `h` descriptor
whose byte count fits 32 bits, when the allocator returns a block at a fresh
address, the loops run without fault on the half-word views of the block, the
call returns true with the truncated dimensions, the pixel block holds the
words of the final half-word array, and the staging block has been freed. -/
theorem rpng_gx_convert_ok (image : texture_image) (h : Heap) (p : Nat) (blk : List Nat)
    (init : Nat → Nat)
    (hp : image.pixels = some p) (hcell : h.cells p = some blk)
    (hlen : blk.length = image.width * image.height)
    (hw : image.width < 2 ^ 32) (hh : image.height < 2 ^ 32)
    (hsize : 4 * (image.width * image.height) < 2 ^ 32)
    (halloc : h.oracle h.requests.length = some init)
    (hfresh : h.cells h.next = none) :
    ∃ (st : gx_state) (h1 : Heap),
      rpng_gx_blit (halves blk) (halves blk) image.width image.height = some st ∧
      st.copies = all_copies (image.width / 4) (2 * image.width) (32 * (image.width / 4))
        (image.height / 4) 0 0 ∧
      st.pix = replay (halves blk) st.copies (halves blk) ∧
      rpng_gx_convert_texture32 image h =
        some (true, ⟨image.width - image.width % 4, image.height - image.height % 4, some p⟩,
          h1) ∧
      h1.cells p = some (words st.pix) ∧
      h1.cells h.next = none ∧
      h1.released = h.next :: h.released ∧
      (∀ q, q ≠ p → q ≠ h.next → h1.cells q = h.cells q) := by
  have hpn : p ≠ h.next := by
    intro heq
    rw [heq, hfresh] at hcell
    exact Option.noConfusion hcell
  have hsz : u32 (u32 (image.width * image.height) * 4) / 4 = image.width * image.height := by
    have hin : u32 (image.width * image.height) = image.width * image.height :=
      u32_of_lt (by omega)
    rw [hin, u32_of_lt (by omega)]
    omega
  obtain ⟨st, hrun, hcop, hpix⟩ := rpng_gx_blit_eq (halves blk) (halves blk) image.width
    image.height hw hh hsize (by rw [halves_length, hlen]) (by rw [halves_length, hlen])
  refine ⟨st,
    { cells :=
        Function.update
          (Function.update
            (Function.update
              (Function.update h.cells h.next
                (some (List.map (fun i => u32 (init i))
                  (List.range (image.width * image.height)))))
              h.next (some blk))
            p (some (words st.pix)))
          h.next none,
      next := h.next + 1,
      requests := u32 (u32 (image.width * image.height) * 4) :: h.requests,
      released := h.next :: h.released, oracle := h.oracle },
    hrun, hcop, hpix, ?eq, ?c1, ?c2, ?c3, ?c4⟩
  case eq =>
    unfold rpng_gx_convert_texture32
    simp only [malloc_some h _ init halloc, hp, Function.update_noteq hpn, hcell, hsz]
    rw [if_neg (by omega), List.take_of_length_le (by omega), hrun]
    simp only [free, Heap.put, Function.update_noteq (Ne.symm hpn), Function.update_same,
      and_not_three _ hw, and_not_three _ hh]
  case c1 => simp [Function.update_noteq hpn]
  case c2 => simp
  case c3 => rfl
  case c4 =>
    intro q hq hqn
    simp [Function.update_noteq hq, Function.update_noteq hqn]

/-! ### Claims on the tiled conversion -/

/-- The half-word found at the tiled index of a pixel half-word after the loops
is the one the staging copy holds for that pixel. -/
theorem replay_all_copies_get (tmp pix : List Nat) (w h y c k : Nat)
    (hpix : 2 * (w * h) ≤ pix.length) (hy : y < 4 * (h / 4)) (hc : c < 4 * (w / 4))
    (hk : k < 2) :
    (replay tmp (all_copies (w / 4) (2 * w) (32 * (w / 4)) (h / 4) 0 0) pix)[
        8 * (4 * (w / 4)) * (y / 4) + 32 * (c / 4) + 16 * k + 4 * (y % 4) + c % 4]? =
      some (tmp.getD (2 * w * y + 2 * c + k) 0) := by
  apply replay_get_of_mem
  · exact (List.Perm.nodup_iff (all_copies_perm (w / 4) (2 * w) (h / 4) 0)).mp
      (List.nodup_range _)
  · exact all_copies_mem_pixel (w / 4) (2 * w) (h / 4) y c k hy hc hk
  · have hlt := tiled_index_lt (w / 4) (h / 4) y c k hy hc hk
    have hnn : 4 * (w / 4) * (4 * (h / 4)) ≤ w * h := Nat.mul_le_mul (by omega) (by omega)
    have e : 2 * (4 * (w / 4)) * (4 * (h / 4)) = 2 * (4 * (w / 4) * (4 * (h / 4))) := by ring
    omega

/-- A source half-word index of a pixel inside the image is inside the buffer. -/
theorem src_index_lt (w h y c k : Nat) (hy : y < h) (hc : c < w) (hk : k < 2) :
    2 * w * y + 2 * c + k < 2 * (w * h) := by
  have h1 : w * (y + 1) ≤ w * h := Nat.mul_le_mul_left w (by omega)
  have h2 : w * (y + 1) = w * y + w := by ring
  have h3 : 2 * w * y = 2 * (w * y) := by ring
  omega

/-- C15: on a populated `w` x `h` descriptor whose byte count `4 * w * h` fits
32 bits (allocator returning a block at a fresh address), the loops of the
conversion run to the end without a fault and the call returns true; every
half-word index read from the staging copy is below `2 * w * h`, every
half-word index written into the pixel buffer is below `2 * w' * h'`, and
`2 * w' * h' <= 2 * w * h`, with `w' = w - w mod 4`, `h' = h - h mod 4`. -/
theorem rpng_gx_convert_in_bounds (image : texture_image) (h : Heap) (p : Nat)
    (blk : List Nat) (init : Nat → Nat)
    (hp : image.pixels = some p) (hcell : h.cells p = some blk)
    (hlen : blk.length = image.width * image.height)
    (hw : image.width < 2 ^ 32) (hh : image.height < 2 ^ 32)
    (hsize : 4 * (image.width * image.height) < 2 ^ 32)
    (halloc : h.oracle h.requests.length = some init)
    (hfresh : h.cells h.next = none) :
    ∃ (st : gx_state) (h1 : Heap),
      rpng_gx_blit (halves blk) (halves blk) image.width image.height = some st ∧
      rpng_gx_convert_texture32 image h =
        some (true, ⟨image.width - image.width % 4, image.height - image.height % 4, some p⟩,
          h1) ∧
      (∀ c ∈ st.copies,
        c.2 < 2 * image.width * image.height ∧
        c.1 < 2 * (image.width - image.width % 4) * (image.height - image.height % 4)) ∧
      2 * (image.width - image.width % 4) * (image.height - image.height % 4) ≤
        2 * image.width * image.height := by
  obtain ⟨st, h1, hrun, hcop, _, hconv, _⟩ :=
    rpng_gx_convert_ok image h p blk init hp hcell hlen hw hh hsize halloc hfresh
  have hW : image.width - image.width % 4 = 4 * (image.width / 4) := by omega
  have hH : image.height - image.height % 4 = 4 * (image.height / 4) := by omega
  have e1 : 2 * (4 * (image.width / 4)) * (4 * (image.height / 4)) =
      image.height / 4 * (32 * (image.width / 4)) := by ring
  have e2 : image.height / 4 * (2 * image.width + 2 * image.width + 2 * image.width +
      2 * image.width) = 2 * image.width * (4 * (image.height / 4)) := by ring
  have e3 : 2 * image.width * (4 * (image.height / 4)) ≤ 2 * image.width * image.height :=
    Nat.mul_le_mul_left _ (by omega)
  have e4 : 4 * (image.width / 4) * (4 * (image.height / 4)) ≤ image.width * image.height :=
    Nat.mul_le_mul (by omega) (by omega)
  have e5 : 2 * (4 * (image.width / 4)) * (4 * (image.height / 4)) =
      2 * (4 * (image.width / 4) * (4 * (image.height / 4))) := by ring
  have e6 : 2 * image.width * image.height = 2 * (image.width * image.height) := by ring
  refine ⟨st, h1, hrun, hconv, ?_, ?_⟩
  · intro c hc
    rw [hcop] at hc
    have hb := all_copies_bound (image.width / 4) (2 * image.width) (32 * (image.width / 4))
      (image.height / 4) (by omega) (Nat.le_refl _) 0 0 c hc
    rw [hW, hH]
    omega
  · rw [hW, hH]
    omega

/-- C18: after a successful conversion of a populated `w` x `h` image, viewing
the pixel block on entry (`src`) and on return (`dst`) as half-words: for every
row `y < h'`, column `c < w'` and `k < 2`, the half-word
`dst[8 * w' * (y / 4) + 32 * (c / 4) + 16 * k + 4 * (y mod 4) + c mod 4]` is
`src[2 * w * y + 2 * c + k]`, with `w' = w - w mod 4`, `h' = h - h mod 4`. -/
theorem rpng_gx_convert_layout (image : texture_image) (h : Heap) (p : Nat)
    (blk : List Nat) (init : Nat → Nat)
    (hp : image.pixels = some p) (hcell : h.cells p = some blk)
    (hlen : blk.length = image.width * image.height)
    (hw : image.width < 2 ^ 32) (hh : image.height < 2 ^ 32)
    (hsize : 4 * (image.width * image.height) < 2 ^ 32)
    (halloc : h.oracle h.requests.length = some init)
    (hfresh : h.cells h.next = none) :
    ∃ (out : List Nat) (h1 : Heap),
      rpng_gx_convert_texture32 image h =
        some (true, ⟨image.width - image.width % 4, image.height - image.height % 4, some p⟩,
          h1) ∧
      h1.cells p = some out ∧
      ∀ y c k, y < image.height - image.height % 4 → c < image.width - image.width % 4 →
        k < 2 →
        ∃ v, (halves blk)[2 * image.width * y + 2 * c + k]? = some v ∧
          (halves out)[8 * (image.width - image.width % 4) * (y / 4) + 32 * (c / 4) + 16 * k +
            4 * (y % 4) + c % 4]? = some v := by
  obtain ⟨st, h1, _, hcop, hpix, hconv, hout, _⟩ :=
    rpng_gx_convert_ok image h p blk init hp hcell hlen hw hh hsize halloc hfresh
  have hW : image.width - image.width % 4 = 4 * (image.width / 4) := by omega
  have hH : image.height - image.height % 4 = 4 * (image.height / 4) := by omega
  have hround : halves (words st.pix) = st.pix := by
    apply words_halves_roundtrip (image.width * image.height)
    · rw [hpix, replay_length, halves_length, hlen]
    · rw [hpix]
      exact replay_lt _ (halves_lt blk) _ _ (halves_lt blk)
  refine ⟨words st.pix, h1, hconv, hout, ?_⟩
  intro y c k hy hc hk
  rw [hW] at hc ⊢
  rw [hH] at hy
  have hsrc : 2 * image.width * y + 2 * c + k < (halves blk).length := by
    rw [halves_length, hlen]
    exact src_index_lt _ _ y c k (by omega) (by omega) hk
  refine ⟨(halves blk).getD (2 * image.width * y + 2 * c + k) 0, ?_, ?_⟩
  · rw [List.getElem?_eq_getElem hsrc, List.getD_eq_getElem _ _ hsrc]
  · rw [hround, hpix, hcop]
    exact replay_all_copies_get (halves blk) (halves blk) image.width image.height y c k
      (by rw [halves_length, hlen]) hy hc hk

/-- C19: on a `w` x `h` image whose byte count fits 32 bits, with
`w' = w - w mod 4` and `h' = h - h mod 4`, the targets of the assignments the
loops carry out are a permutation of the half-word indices `0 .. 2 * w' * h' - 1`:
each is written exactly once.  The assignment for row `y < h'`, column `c < w'`,
half `k < 2` has target
`8 * w' * (y / 4) + 32 * (c / 4) + 16 * k + 4 * (y mod 4) + c mod 4`, and this
map is one-to-one from those triples onto the indices below `2 * w' * h'`. -/
theorem rpng_gx_blit_bijection (tmp pix : List Nat) (w h : Nat)
    (hw : w < 2 ^ 32) (hh : h < 2 ^ 32) (hsize : 4 * (w * h) < 2 ^ 32)
    (htmp : 2 * (w * h) ≤ tmp.length) (hpix : 2 * (w * h) ≤ pix.length) :
    ∃ st : gx_state, rpng_gx_blit tmp pix w h = some st ∧
      (List.range (2 * (w - w % 4) * (h - h % 4))).Perm (st.copies.map Prod.fst) ∧
      (∀ y c k, y < h - h % 4 → c < w - w % 4 → k < 2 →
        (8 * (w - w % 4) * (y / 4) + 32 * (c / 4) + 16 * k + 4 * (y % 4) + c % 4,
          2 * w * y + 2 * c + k) ∈ st.copies ∧
        8 * (w - w % 4) * (y / 4) + 32 * (c / 4) + 16 * k + 4 * (y % 4) + c % 4 <
          2 * (w - w % 4) * (h - h % 4)) ∧
      (∀ y c k y' c' k', y < h - h % 4 → c < w - w % 4 → k < 2 →
        y' < h - h % 4 → c' < w - w % 4 → k' < 2 →
        8 * (w - w % 4) * (y / 4) + 32 * (c / 4) + 16 * k + 4 * (y % 4) + c % 4 =
          8 * (w - w % 4) * (y' / 4) + 32 * (c' / 4) + 16 * k' + 4 * (y' % 4) + c' % 4 →
        y = y' ∧ c = c' ∧ k = k') ∧
      (∀ d, d < 2 * (w - w % 4) * (h - h % 4) →
        ∃ y c k, y < h - h % 4 ∧ c < w - w % 4 ∧ k < 2 ∧
          8 * (w - w % 4) * (y / 4) + 32 * (c / 4) + 16 * k + 4 * (y % 4) + c % 4 = d) := by
  obtain ⟨st, hrun, hcop, _⟩ := rpng_gx_blit_eq tmp pix w h hw hh hsize htmp hpix
  have hW : w - w % 4 = 4 * (w / 4) := by omega
  have hH : h - h % 4 = 4 * (h / 4) := by omega
  rw [hW, hH]
  refine ⟨st, hrun, ?_, ?_, ?_, ?_⟩
  · rw [hcop]
    have e : 2 * (4 * (w / 4)) * (4 * (h / 4)) = h / 4 * (32 * (w / 4)) := by ring
    rw [e]
    exact all_copies_perm (w / 4) (2 * w) (h / 4) 0
  · intro y c k hy hc hk
    rw [hcop]
    exact ⟨all_copies_mem_pixel (w / 4) (2 * w) (h / 4) y c k hy hc hk,
      tiled_index_lt (w / 4) (h / 4) y c k hy hc hk⟩
  · intro y c k y' c' k' _ hc hk _ hc' hk' heq
    exact tiled_index_inj (w / 4) y c k y' c' k' hc hk hc' hk' heq
  · intro d hd
    exact tiled_index_cover (w / 4) (h / 4) d hd

/-- C14: a successful conversion of a populated `w` x `h` descriptor sets the
width to `w - w mod 4` and the height to `h - h mod 4`, and the `w' * h'` words
of the output depend only on the source pixels of rows below the new height and
columns below the new width: a run on any other block that agrees with the
source on those pixels gives the same output words. -/
theorem rpng_gx_convert_truncates (image : texture_image) (h : Heap) (p : Nat)
    (blk : List Nat) (init : Nat → Nat)
    (hp : image.pixels = some p) (hcell : h.cells p = some blk)
    (hlen : blk.length = image.width * image.height)
    (hw : image.width < 2 ^ 32) (hh : image.height < 2 ^ 32)
    (hsize : 4 * (image.width * image.height) < 2 ^ 32)
    (halloc : h.oracle h.requests.length = some init)
    (hfresh : h.cells h.next = none) :
    ∃ (out : List Nat) (h1 : Heap),
      rpng_gx_convert_texture32 image h =
        some (true, ⟨image.width - image.width % 4, image.height - image.height % 4, some p⟩,
          h1) ∧
      h1.cells p = some out ∧
      ∀ blk2 : List Nat, blk2.length = image.width * image.height →
        (∀ y c, y < image.height - image.height % 4 → c < image.width - image.width % 4 →
          blk2[image.width * y + c]? = blk[image.width * y + c]?) →
        ∃ (out2 : List Nat) (h2 : Heap),
          rpng_gx_convert_texture32 image (h.put p blk2) =
            some (true,
              ⟨image.width - image.width % 4, image.height - image.height % 4, some p⟩, h2) ∧
          h2.cells p = some out2 ∧
          out2.take ((image.width - image.width % 4) * (image.height - image.height % 4)) =
            out.take ((image.width - image.width % 4) * (image.height - image.height % 4)) := by
  obtain ⟨st, h1, _, hcop, hpix, hconv, hout, _⟩ :=
    rpng_gx_convert_ok image h p blk init hp hcell hlen hw hh hsize halloc hfresh
  have hpn : p ≠ h.next := by
    intro heq
    rw [heq, hfresh] at hcell
    exact Option.noConfusion hcell
  refine ⟨words st.pix, h1, hconv, hout, ?_⟩
  intro blk2 hlen2 hagree
  obtain ⟨st2, h2, _, hcop2, hpix2, hconv2, hout2, _⟩ :=
    rpng_gx_convert_ok image (h.put p blk2) p blk2 init hp (Heap.put_cells _ _ _) hlen2 hw hh
      hsize halloc (by
        show (h.put p blk2).cells h.next = none
        simp [Heap.put, Function.update_noteq (Ne.symm hpn), hfresh])
  refine ⟨words st2.pix, h2, hconv2, hout2, ?_⟩
  have hW : image.width - image.width % 4 = 4 * (image.width / 4) := by omega
  have hH : image.height - image.height % 4 = 4 * (image.height / 4) := by omega
  rw [hW, hH] at hagree ⊢
  rw [words_take, words_take]
  congr 1
  apply List.ext_getElem?
  intro d
  rw [List.getElem?_take, List.getElem?_take]
  by_cases hd : d < 2 * (4 * (image.width / 4) * (4 * (image.height / 4)))
  · rw [if_pos hd, if_pos hd]
    have hd2 : d < 2 * (4 * (image.width / 4)) * (4 * (image.height / 4)) := by
      have e : 2 * (4 * (image.width / 4)) * (4 * (image.height / 4)) =
          2 * (4 * (image.width / 4) * (4 * (image.height / 4))) := by ring
      omega
    obtain ⟨y, c, k, hy, hc, hk, hidx⟩ :=
      tiled_index_cover (image.width / 4) (image.height / 4) d hd2
    have hA := replay_all_copies_get (halves blk) (halves blk) image.width image.height y c k
      (by rw [halves_length, hlen]) hy hc hk
    have hB := replay_all_copies_get (halves blk2) (halves blk2) image.width image.height y c k
      (by rw [halves_length, hlen2]) hy hc hk
    rw [hidx] at hA hB
    rw [hpix2, hcop2, hB, hpix, hcop, hA]
    have hsrc : 2 * image.width * y + 2 * c + k = 2 * (image.width * y + c) + k := by ring
    rw [hsrc, halves_getD _ _ _ hk, halves_getD _ _ _ hk]
    have hg := hagree y c hy hc
    simp only [List.getD_eq_getElem?_getD, hg]
  · rw [if_neg hd, if_neg hd]

/-! ### The descriptor after each operation -/

theorem store32_lengths (h h1 : Heap) (p i v : Nat) (hs : store32 h p i v = some h1) :
    ∀ q, (h1.cells q).map List.length = (h.cells q).map List.length := by
  intro q
  unfold store32 at hs
  cases hc : h.cells p with
  | none => simp [hc] at hs
  | some blk =>
    simp only [hc] at hs
    by_cases hi : i < blk.length
    · rw [if_pos hi] at hs
      cases hs
      by_cases hq : q = p
      · subst hq
        simp [hc]
      · simp [Function.update_noteq hq]
    · rw [if_neg hi] at hs
      exact Option.noConfusion hs

theorem rpng_repack_pixel_lengths (p sa sr sg sb i : Nat) (h h1 : Heap)
    (hs : rpng_repack_pixel p sa sr sg sb i h = some h1) :
    ∀ q, (h1.cells q).map List.length = (h.cells q).map List.length := by
  unfold rpng_repack_pixel at hs
  cases hl : load32 h p i with
  | none => simp [hl] at hs
  | some col =>
    simp only [hl] at hs
    exact store32_lengths h h1 p i _ hs

/-- The repacking loop, whenever it runs to the end, keeps the length of every
block. -/
theorem for_loop_repack_lengths (p sa sr sg sb : Nat) (count : Nat) :
    ∀ (i : Nat) (h h1 : Heap),
      for_loop (rpng_repack_pixel p sa sr sg sb) count i h = some h1 →
      ∀ q, (h1.cells q).map List.length = (h.cells q).map List.length := by
  induction count with
  | zero =>
    intro i h h1 hs q
    simp only [for_loop, Option.some.injEq] at hs
    rw [hs]
  | succ n ih =>
    intro i h h1 hs q
    simp only [for_loop] at hs
    cases hb : rpng_repack_pixel p sa sr sg sb i h with
    | none => simp [hb] at hs
    | some h2 =>
      simp only [hb] at hs
      rw [ih (i + 1) h2 h1 hs q, rpng_repack_pixel_lengths p sa sr sg sb i h h2 hb q]

/-- The repacker returns the flag and the descriptor of the external decoder and
keeps the length of every block the decoder left. -/
theorem rpng_image_load_argb_shift_lengths (env : Env) (path : String)
    (out_img : texture_image) (sa sr sg sb : Nat) (h : Heap)
    (r : Bool × texture_image × Heap)
    (hr : rpng_image_load_argb_shift env path out_img sa sr sg sb h = some r) :
    r.1 = (env.rpng_load_image_argb path out_img h).1 ∧
    r.2.1 = (env.rpng_load_image_argb path out_img h).2.1 ∧
    ∀ q, (r.2.2.cells q).map List.length =
      ((env.rpng_load_image_argb path out_img h).2.2.cells q).map List.length := by
  unfold rpng_image_load_argb_shift at hr
  rcases hd : env.rpng_load_image_argb path out_img h with ⟨ret, d, h1⟩
  rw [hd] at hr
  simp only at hr
  cases ret with
  | false =>
    simp only [Bool.not_false, if_true, Option.some.injEq] at hr
    subst hr
    exact ⟨rfl, rfl, fun _ => rfl⟩
  | true =>
    simp only [Bool.not_true, Bool.false_eq_true, if_false] at hr
    split at hr
    · split at hr
      · split at hr
        · cases hr
          exact ⟨rfl, rfl, fun _ => rfl⟩
        · exact Option.noConfusion hr
      · rename_i pixels _
        split at hr
        · exact Option.noConfusion hr
        · rename_i h2 hloop
          cases hr
          exact ⟨rfl, rfl, for_loop_repack_lengths pixels sa sr sg sb _ 0 h1 h2 hloop⟩
    · cases hr
      exact ⟨rfl, rfl, fun _ => rfl⟩

/-- A call of the TGA decoder that returns true found depth 24 or 32. -/
theorem rtga_true_bits (buf : Bytes) (out_img : texture_image) (sa sr sg sb : Nat) (h : Heap)
    (img1 : texture_image) (h1 : Heap)
    (hret : rtga_image_load_shift buf out_img sa sr sg sb h = some (true, img1, h1)) :
    (buf 16).val = 24 ∨ (buf 16).val = 32 := by
  by_contra hbits
  have h24 : ¬ (buf 16).val = 24 := fun e => hbits (Or.inl e)
  have h32 : ¬ (buf 16).val = 32 := fun e => hbits (Or.inr e)
  unfold rtga_image_load_shift at hret
  by_cases htype : (buf 2).val = 2
  · simp only [htype, ne_eq, not_true_eq_false, if_false] at hret
    cases ho : h.oracle h.requests.length with
    | none => simp [malloc_none h _ ho] at hret
    | some init =>
      simp only [malloc_some h _ init ho, Nat.reduceAdd, h24, h32, not_false_eq_true,
        and_self, if_true, free, Function.update_same] at hret
      simp at hret
  · simp [htype] at hret

/-- A call of the TGA decoder that returns false either left the descriptor and
the heap untouched (type byte other than 2) or left a null `pixels` field with
the width and height of the header. -/
theorem rtga_false_descriptor (buf : Bytes) (out_img : texture_image) (sa sr sg sb : Nat)
    (h : Heap) (img1 : texture_image) (h1 : Heap)
    (hret : rtga_image_load_shift buf out_img sa sr sg sb h = some (false, img1, h1)) :
    (img1 = out_img ∧ h1 = h) ∨
      (img1.pixels = none ∧ img1.width = (buf 12).val + 256 * (buf 13).val ∧
        img1.height = (buf 14).val + 256 * (buf 15).val) := by
  by_cases htype : (buf 2).val = 2
  · right
    by_cases hbits : (buf 16).val = 24 ∨ (buf 16).val = 32
    · rw [rtga_eval buf out_img sa sr sg sb h htype hbits] at hret
      cases ho : h.oracle h.requests.length with
      | none =>
        simp only [ho, Option.some.injEq, Prod.mk.injEq, true_and] at hret
        rw [← hret.1]
        exact ⟨rfl, rfl, rfl⟩
      | some init =>
        simp only [ho] at hret
        split at hret
        · simp at hret
        · exact Option.noConfusion hret
    · have h24 : ¬ (buf 16).val = 24 := fun e => hbits (Or.inl e)
      have h32 : ¬ (buf 16).val = 32 := fun e => hbits (Or.inr e)
      unfold rtga_image_load_shift at hret
      simp only [htype, ne_eq, not_true_eq_false, if_false, Nat.add_zero, le16_eq] at hret
      cases ho : h.oracle h.requests.length with
      | none =>
        simp only [malloc_none h _ ho, Option.some.injEq, Prod.mk.injEq, true_and] at hret
        rw [← hret.1]
        exact ⟨rfl, rfl, rfl⟩
      | some init =>
        simp only [malloc_some h _ init ho, Nat.reduceAdd, h24, h32, not_false_eq_true,
          and_self, if_true, free, Function.update_same, Option.some.injEq, Prod.mk.injEq,
          true_and] at hret
        rw [← hret.1]
        exact ⟨rfl, rfl, rfl⟩
  · left
    simp only [rtga_image_load_shift, htype, ne_eq, not_false_eq_true, if_true,
      Option.some.injEq, Prod.mk.injEq, true_and] at hret
    exact ⟨hret.1.symm, hret.2.symm⟩

/-- C11 (counterexample): started on the unpopulated descriptor, the TGA decoder
returns with a null `pixels` field and width 2, height 1 when the allocation
fails, and with width 1, height 1 when the depth is 16; started on the 6x6
descriptor with its block of 36 words, the conversion returns a 4x4 descriptor
whose block still has 36 words. -/
theorem descriptor_invariant_broken :
    (img_empty.pixels = none ∧ img_empty.width = 0 ∧ img_empty.height = 0) ∧
      (rtga_image_load_shift tga_2x1_24 img_empty 24 16 8 0 heap_oom).map
        (fun r => (r.1, r.2.1.pixels, r.2.1.width, r.2.1.height)) =
          some (false, none, 2, 1) ∧
      (rtga_image_load_shift tga_1x1_16 img_empty 24 16 8 0 heap_ok).map
        (fun r => (r.1, r.2.1.pixels, r.2.1.width, r.2.1.height)) =
          some (false, none, 1, 1) ∧
      (heap_6x6.cells 0).map List.length = some (6 * 6) ∧
      (rpng_gx_convert_texture32 ⟨6, 6, some 0⟩ heap_6x6).map
        (fun r => (r.1, r.2.1.width, r.2.1.height, (r.2.2.cells 0).map List.length)) =
          some (true, 4, 4, some 36) :=
  ⟨⟨rfl, rfl, rfl⟩, by decide, by decide, rfl, rfl⟩

/-- C11 (amended): what each operation leaves.  A TGA decode that returns true
leaves a pixel buffer of `width * height` words.  A TGA decode that returns
false leaves either the descriptor and the heap untouched (type byte other than
2) or a null `pixels` field with the width and height of the header.  The PNG
repacker returns the descriptor of the external decoder and keeps the length of
every block, so the invariant holds after it when it holds for the decoder's
output.  Release of a non-null descriptor leaves `pixels` null and
`width = height = 0`.  A successful tiled conversion of a populated `w` x `h`
descriptor leaves the pixel buffer with its `w * h` words and the dimensions
truncated to `w - w mod 4` and `h - h mod 4`. -/
theorem descriptor_after_operations (image : texture_image) (h : Heap) (p : Nat)
    (blk : List Nat) (init : Nat → Nat)
    (hp : image.pixels = some p) (hcell : h.cells p = some blk)
    (hlen : blk.length = image.width * image.height)
    (hw : image.width < 2 ^ 32) (hh : image.height < 2 ^ 32)
    (hsize : 4 * (image.width * image.height) < 2 ^ 32)
    (halloc : h.oracle h.requests.length = some init)
    (hfresh : h.cells h.next = none) :
    (∀ (buf : Bytes) (out_img : texture_image) (sa sr sg sb : Nat) (h0 : Heap)
        (img1 : texture_image) (h1 : Heap),
      rtga_image_load_shift buf out_img sa sr sg sb h0 = some (true, img1, h1) →
      ∃ (q : Nat) (b : List Nat), img1.pixels = some q ∧ h1.cells q = some b ∧
        b.length = img1.width * img1.height) ∧
    (∀ (buf : Bytes) (out_img : texture_image) (sa sr sg sb : Nat) (h0 : Heap)
        (img1 : texture_image) (h1 : Heap),
      rtga_image_load_shift buf out_img sa sr sg sb h0 = some (false, img1, h1) →
      (img1 = out_img ∧ h1 = h0) ∨
        (img1.pixels = none ∧ img1.width = (buf 12).val + 256 * (buf 13).val ∧
          img1.height = (buf 14).val + 256 * (buf 15).val)) ∧
    (∀ (env : Env) (path : String) (out_img : texture_image) (sa sr sg sb : Nat) (h0 : Heap)
        (r : Bool × texture_image × Heap),
      rpng_image_load_argb_shift env path out_img sa sr sg sb h0 = some r →
      ((∃ (q : Nat) (b : List Nat),
          (env.rpng_load_image_argb path out_img h0).2.1.pixels = some q ∧
          (env.rpng_load_image_argb path out_img h0).2.2.cells q = some b ∧
          b.length = (env.rpng_load_image_argb path out_img h0).2.1.width *
            (env.rpng_load_image_argb path out_img h0).2.1.height) ∨
        ((env.rpng_load_image_argb path out_img h0).2.1.pixels = none ∧
          (env.rpng_load_image_argb path out_img h0).2.1.width = 0 ∧
          (env.rpng_load_image_argb path out_img h0).2.1.height = 0)) →
      ((∃ (q : Nat) (b : List Nat), r.2.1.pixels = some q ∧ r.2.2.cells q = some b ∧
          b.length = r.2.1.width * r.2.1.height) ∨
        (r.2.1.pixels = none ∧ r.2.1.width = 0 ∧ r.2.1.height = 0))) ∧
    (∀ (img : texture_image) (h0 : Heap) (r : Option texture_image × Heap),
      texture_image_free (some img) h0 = some r → r.1 = some ⟨0, 0, none⟩) ∧
    (∃ (out : List Nat) (h1 : Heap),
      rpng_gx_convert_texture32 image h =
        some (true, ⟨image.width - image.width % 4, image.height - image.height % 4, some p⟩,
          h1) ∧
      h1.cells p = some out ∧ out.length = image.width * image.height) := by
  refine ⟨?_, ?_, ?_, ?_, ?_⟩
  · intro buf out_img sa sr sg sb h0 img1 h1 hret
    have hbits := rtga_true_bits buf out_img sa sr sg sb h0 img1 h1 hret
    obtain ⟨htype, ⟨init0, halloc0⟩, hsize0⟩ :=
      rtga_true_inv buf out_img sa sr sg sb h0 img1 h1 hbits hret
    obtain ⟨h2, b, hrun, hc, hl, _⟩ :=
      rtga_run_ok buf out_img sa sr sg sb h0 init0 htype hbits halloc0 hsize0
    rw [hrun] at hret
    simp only [Option.some.injEq, Prod.mk.injEq, true_and] at hret
    obtain ⟨himg, hheap⟩ := hret
    subst himg hheap
    exact ⟨h0.next, b, rfl, hc, hl⟩
  · intro buf out_img sa sr sg sb h0 img1 h1 hret
    exact rtga_false_descriptor buf out_img sa sr sg sb h0 img1 h1 hret
  · intro env path out_img sa sr sg sb h0 r hr hinv
    obtain ⟨_, himg, hlens⟩ :=
      rpng_image_load_argb_shift_lengths env path out_img sa sr sg sb h0 r hr
    rw [himg]
    rcases hinv with ⟨q, b, hq, hc, hl⟩ | hnull
    · left
      have hq2 := hlens q
      rw [hc] at hq2
      cases hrc : r.2.2.cells q with
      | none => simp [hrc] at hq2
      | some b2 =>
        simp only [hrc, Option.map_some', Option.some.injEq] at hq2
        exact ⟨q, b2, hq, hrc, by rw [hq2, hl]⟩
    · right
      exact hnull
  · intro img h0 r hr
    unfold texture_image_free at hr
    simp only at hr
    split at hr
    · cases hr; rfl
    · split at hr
      · exact Option.noConfusion hr
      · cases hr; rfl
  · obtain ⟨st, h1, _, _, hpix, hconv, hout, _⟩ :=
      rpng_gx_convert_ok image h p blk init hp hcell hlen hw hh hsize halloc hfresh
    refine ⟨words st.pix, h1, hconv, hout, ?_⟩
    apply words_length
    rw [hpix, replay_length, halves_length, hlen]

/-- C11 (witness): the 6x6 image becomes a 4x4 descriptor over its 36 words. -/
theorem descriptor_after_operations_witness :
    ∃ (out : List Nat) (h1 : Heap),
      rpng_gx_convert_texture32 ⟨6, 6, some 0⟩ heap_6x6 = some (true, ⟨4, 4, some 0⟩, h1) ∧
      h1.cells 0 = some out ∧ out.length = 6 * 6 :=
  (descriptor_after_operations ⟨6, 6, some 0⟩ heap_6x6 0 blk_6x6 (fun _ => 0) rfl rfl rfl
    (by decide) (by decide) (by decide) rfl rfl).2.2.2.2

/-- C14 (witness): a 6x6 input yields a 4x4 descriptor whose 16 output words
depend only on the pixels of rows and columns 0 to 3. -/
theorem rpng_gx_convert_truncates_witness :
    ∃ (out : List Nat) (h1 : Heap),
      rpng_gx_convert_texture32 ⟨6, 6, some 0⟩ heap_6x6 = some (true, ⟨4, 4, some 0⟩, h1) ∧
      h1.cells 0 = some out ∧
      ∀ blk2 : List Nat, blk2.length = 6 * 6 →
        (∀ y c, y < 4 → c < 4 → blk2[6 * y + c]? = blk_6x6[6 * y + c]?) →
        ∃ (out2 : List Nat) (h2 : Heap),
          rpng_gx_convert_texture32 ⟨6, 6, some 0⟩ (heap_6x6.put 0 blk2) =
            some (true, ⟨4, 4, some 0⟩, h2) ∧
          h2.cells 0 = some out2 ∧ out2.take (4 * 4) = out.take (4 * 4) :=
  rpng_gx_convert_truncates ⟨6, 6, some 0⟩ heap_6x6 0 blk_6x6 (fun _ => 0) rfl rfl rfl
    (by decide) (by decide) (by decide) rfl rfl

/-- C15 (witness): on the 6x6 image every index read is below 72 and every
index written is below 32. -/
theorem rpng_gx_convert_in_bounds_witness :
    ∃ (st : gx_state) (h1 : Heap),
      rpng_gx_blit (halves blk_6x6) (halves blk_6x6) 6 6 = some st ∧
      rpng_gx_convert_texture32 ⟨6, 6, some 0⟩ heap_6x6 = some (true, ⟨4, 4, some 0⟩, h1) ∧
      (∀ c ∈ st.copies, c.2 < 2 * 6 * 6 ∧ c.1 < 2 * 4 * 4) ∧
      2 * 4 * 4 ≤ 2 * 6 * 6 :=
  rpng_gx_convert_in_bounds ⟨6, 6, some 0⟩ heap_6x6 0 blk_6x6 (fun _ => 0) rfl rfl rfl
    (by decide) (by decide) (by decide) rfl rfl

/-- C18 (witness): the layout of the converted 6x6 image. -/
theorem rpng_gx_convert_layout_witness :
    ∃ (out : List Nat) (h1 : Heap),
      rpng_gx_convert_texture32 ⟨6, 6, some 0⟩ heap_6x6 = some (true, ⟨4, 4, some 0⟩, h1) ∧
      h1.cells 0 = some out ∧
      ∀ y c k, y < 4 → c < 4 → k < 2 →
        ∃ v, (halves blk_6x6)[2 * 6 * y + 2 * c + k]? = some v ∧
          (halves out)[8 * 4 * (y / 4) + 32 * (c / 4) + 16 * k + 4 * (y % 4) + c % 4]? =
            some v :=
  rpng_gx_convert_layout ⟨6, 6, some 0⟩ heap_6x6 0 blk_6x6 (fun _ => 0) rfl rfl rfl
    (by decide) (by decide) (by decide) rfl rfl

/-- C19 (witness): on the 6x6 image the 32 targets are a permutation of
`0 .. 31`. -/
theorem rpng_gx_blit_bijection_witness :
    ∃ st : gx_state, rpng_gx_blit (halves blk_6x6) (halves blk_6x6) 6 6 = some st ∧
      (List.range (2 * 4 * 4)).Perm (st.copies.map Prod.fst) :=
  (rpng_gx_blit_bijection (halves blk_6x6) (halves blk_6x6) 6 6 (by decide) (by decide)
    (by decide) (by decide) (by decide)).imp fun _ hst => ⟨hst.1, hst.2.1⟩

end Image
